import Mathlib

/-!
Verification of the cmepy adaptive truncated-domain CME solver core.

This file gives a shallow embedding, over exact rational arithmetic, of:
  * `StateIndexMap` (src/fsp.py): dict-based bidirectional state/index maps;
  * `create_flux_matrices` (src/fsp.py): per-reaction sparse COO flux matrices
    with out-of-domain flux routed into error accumulators;
  * `compress` (src/cmepy/statistics.py): minimal-support distribution
    compression;
  * `map_distribution` / `map_distribution_simple` (src/cmepy/statistics.py);
  * `FspSolver.step` (src/cmepy/fsp/solver.py): the expand-and-retry stepping
    loop, with the external integrator and domain expander as oracles.

Python dicts are modelled as association lists where assignment overwrites
the previous binding (`dictInsert` / `buildDict`); lookup of the resulting
dict coincides with taking the last inserted binding (`lookupLast`).
-/

namespace Cmepy

/-- States are integer vectors of some fixed dimension (list of coordinates). -/
abbrev State := List ℤ

/-- Association-list lookup, first binding wins (python dict read, given that
`buildDict` keeps keys unique). -/
def alookup {α β : Type} [DecidableEq α] (k : α) : List (α × β) → Option β
  | [] => none
  | e :: rest => if e.1 = k then some e.2 else alookup k rest

/-- Python dict assignment `d[k] = v`: overwrite the binding of `k` if present,
otherwise append a new binding. -/
def dictInsert {α β : Type} [DecidableEq α] : List (α × β) → α → β → List (α × β)
  | [], k, v => [(k, v)]
  | e :: rest, k, v => if e.1 = k then (k, v) :: rest else e :: dictInsert rest k v

/-- Build a python dict from a sequence of assignments, performed in order. -/
def buildDict {α β : Type} [DecidableEq α] (entries : List (α × β)) : List (α × β) :=
  entries.foldl (fun d e => dictInsert d e.1 e.2) []

/-- The last binding of key `k` in an assignment sequence (python dict
overwrite semantics). -/
def lookupLast {α β : Type} [DecidableEq α] (k : α) : List (α × β) → Option β
  | [] => none
  | e :: rest =>
    match lookupLast k rest with
    | some v => some v
    | none => if e.1 = k then some e.2 else none

/-- Enumeration pairs `(state, origin + relative_index)`, mirroring
`enumerate(itertools.izip(*vectstates))` in `StateIndexMap.__init__`. -/
def enumPairs {α : Type} (origin : ℤ) : List α → List (α × ℤ)
  | [] => []
  | s :: rest => (s, origin) :: enumPairs (origin + 1) rest

/-- StateIndexMap (src/fsp.py, lines 5-39): a domain of states together with
the origin offset for the dense index range. -/
structure StateIndexMap where
  dim : ℕ
  vectstates : List State
  origin : ℤ

/-- The `(state, index)` assignment sequence performed by the constructor
loop. -/
def StateIndexMap.entries (m : StateIndexMap) : List (State × ℤ) :=
  enumPairs m.origin m.vectstates

/-- The constructor's `state_to_index` dict. -/
def StateIndexMap.stateToIndexDict (m : StateIndexMap) : List (State × ℤ) :=
  buildDict m.entries

/-- The constructor's `index_to_state` dict. -/
def StateIndexMap.indexToStateDict (m : StateIndexMap) : List (ℤ × State) :=
  buildDict (m.entries.map Prod.swap)

/-- `self.state_to_index[state]` lookup. -/
def state_to_index (m : StateIndexMap) (s : State) : Option ℤ :=
  alookup s m.stateToIndexDict

/-- `self.index_to_state[index]` lookup. -/
def index_to_state (m : StateIndexMap) (i : ℤ) : Option State :=
  alookup i m.indexToStateDict

/-- `self.size = len(self.state_to_index)`. -/
def StateIndexMap.size (m : StateIndexMap) : ℕ :=
  m.stateToIndexDict.length

theorem alookup_dictInsert {α β : Type} [DecidableEq α]
    (d : List (α × β)) (k k' : α) (v : β) :
    alookup k (dictInsert d k' v) = if k' = k then some v else alookup k d := by
  induction d with
  | nil => simp [dictInsert, alookup]
  | cons e rest ih =>
    by_cases h : e.1 = k'
    · simp only [dictInsert, if_pos h, alookup]
      by_cases h2 : k' = k
      · simp [h2]
      · have h3 : ¬ e.1 = k := by rw [h]; exact h2
        simp [h2, h3, alookup]
    · simp only [dictInsert, if_neg h, alookup]
      by_cases h2 : e.1 = k
      · have h3 : ¬ k' = k := by intro hc; exact h (h2.trans hc.symm)
        simp [h2, h3]
      · simp [h2, ih]

theorem alookup_foldl_dictInsert {α β : Type} [DecidableEq α]
    (entries : List (α × β)) (d : List (α × β)) (k : α) :
    alookup k (entries.foldl (fun d e => dictInsert d e.1 e.2) d)
      = match lookupLast k entries with
        | some v => some v
        | none => alookup k d := by
  induction entries generalizing d with
  | nil => simp [lookupLast]
  | cons e rest ih =>
    simp only [List.foldl_cons, lookupLast]
    rw [ih]
    cases h : lookupLast k rest with
    | some v => simp
    | none =>
      rw [alookup_dictInsert]
      by_cases h3 : e.1 = k <;> simp [h3]

theorem alookup_buildDict {α β : Type} [DecidableEq α]
    (entries : List (α × β)) (k : α) :
    alookup k (buildDict entries) = lookupLast k entries := by
  rw [buildDict, alookup_foldl_dictInsert]
  cases h : lookupLast k entries <;> simp [alookup]

theorem lookupLast_mem {α β : Type} [DecidableEq α]
    {d : List (α × β)} {k : α} {v : β} (h : lookupLast k d = some v) :
    (k, v) ∈ d := by
  induction d with
  | nil => simp [lookupLast] at h
  | cons e rest ih =>
    simp only [lookupLast] at h
    cases h2 : lookupLast k rest with
    | some w =>
      rw [h2] at h
      exact List.mem_cons_of_mem _ (ih (h2.trans (by injection h with h3; rw [h3])))
    | none =>
      rw [h2] at h
      by_cases h3 : e.1 = k
      · rw [if_pos h3] at h
        injection h with h4
        have : e = (k, v) := by
          cases e with
          | mk a b => simp only at h3 h4; rw [h3, h4]
        rw [← this]
        exact List.mem_cons_self _ _
      · rw [if_neg h3] at h
        exact absurd h (by simp)

theorem mem_lookupLast {α β : Type} [DecidableEq α]
    {d : List (α × β)} {k : α} {v : β} (h : (k, v) ∈ d) :
    ∃ w, lookupLast k d = some w := by
  induction d with
  | nil => simp at h
  | cons e rest ih =>
    rcases List.mem_cons.mp h with h1 | h1
    · cases h2 : lookupLast k rest with
      | some w => exact ⟨w, by simp [lookupLast, h2]⟩
      | none =>
        refine ⟨e.2, ?_⟩
        simp only [lookupLast, h2]
        rw [← h1]
        simp
    · obtain ⟨w, hw⟩ := ih h1
      exact ⟨w, by simp [lookupLast, hw]⟩

theorem mem_unique_of_nodup_keys {α β : Type}
    {d : List (α × β)} {k : α} {v w : β}
    (hnd : (d.map Prod.fst).Nodup) (h1 : (k, v) ∈ d) (h2 : (k, w) ∈ d) :
    v = w := by
  induction d with
  | nil => simp at h1
  | cons e rest ih =>
    simp only [List.map_cons, List.nodup_cons] at hnd
    rcases List.mem_cons.mp h1 with ha | ha <;> rcases List.mem_cons.mp h2 with hb | hb
    · rw [← hb] at ha; injection ha
    · exfalso
      have he : e.1 = k := by rw [← ha]
      exact hnd.1 (by rw [he]; exact List.mem_map_of_mem Prod.fst hb)
    · exfalso
      have he : e.1 = k := by rw [← hb]
      exact hnd.1 (by rw [he]; exact List.mem_map_of_mem Prod.fst ha)
    · exact ih hnd.2 ha hb

theorem lookupLast_eq_iff {α β : Type} [DecidableEq α]
    {d : List (α × β)} (hnd : (d.map Prod.fst).Nodup) (k : α) (v : β) :
    lookupLast k d = some v ↔ (k, v) ∈ d := by
  constructor
  · exact lookupLast_mem
  · intro h
    obtain ⟨w, hw⟩ := mem_lookupLast h
    rw [hw]
    exact congrArg some (mem_unique_of_nodup_keys hnd h (lookupLast_mem hw)).symm

theorem enumPairs_map_fst {α : Type} (o : ℤ) (l : List α) :
    (enumPairs o l).map Prod.fst = l := by
  induction l generalizing o with
  | nil => rfl
  | cons s rest ih => simp [enumPairs, ih]

theorem mem_enumPairs_snd_bound {α : Type} {o i : ℤ} {s : α} {l : List α}
    (h : (s, i) ∈ enumPairs o l) : o ≤ i ∧ i < o + l.length := by
  induction l generalizing o with
  | nil => simp [enumPairs] at h
  | cons x rest ih =>
    rcases List.mem_cons.mp h with h1 | h1
    · injection h1 with h2 h3
      simp only [List.length_cons]
      constructor
      · rw [h3]
      · rw [h3]; push_cast; linarith
    · obtain ⟨h2, h3⟩ := ih h1
      simp only [List.length_cons]
      constructor
      · linarith
      · push_cast at h3 ⊢; linarith

theorem mem_enumPairs {α : Type} {o i : ℤ} {s : α} {l : List α} :
    (s, i) ∈ enumPairs o l ↔
      ∃ k : ℕ, ∃ h : k < l.length, l.get ⟨k, h⟩ = s ∧ i = o + k := by
  induction l generalizing o with
  | nil => simp [enumPairs]
  | cons x rest ih =>
    constructor
    · intro h
      rcases List.mem_cons.mp h with h1 | h1
      · injection h1 with h2 h3
        exact ⟨0, by simp, by simp [h2], by simp [h3]⟩
      · obtain ⟨k, hk, hget, hi⟩ := ih.mp h1
        refine ⟨k + 1, by simpa using Nat.succ_lt_succ hk, by simpa using hget, ?_⟩
        rw [hi]; push_cast; ring
    · rintro ⟨k, hk, hget, hi⟩
      cases k with
      | zero =>
        simp only [List.get] at hget
        have hio : i = o := by rw [hi]; simp
        rw [← hget, hio]
        exact List.mem_cons_self _ _
      | succ k2 =>
        apply List.mem_cons_of_mem
        apply ih.mpr
        refine ⟨k2, by simpa using Nat.lt_of_succ_lt_succ hk, by simpa using hget, ?_⟩
        rw [hi]; push_cast; ring

theorem enumPairs_map_snd_nodup {α : Type} (o : ℤ) (l : List α) :
    ((enumPairs o l).map Prod.snd).Nodup := by
  induction l generalizing o with
  | nil => simp [enumPairs]
  | cons x rest ih =>
    simp only [enumPairs, List.map_cons, List.nodup_cons]
    refine ⟨?_, ih (o + 1)⟩
    intro hmem
    obtain ⟨p, hp, hsnd⟩ := List.mem_map.mp hmem
    have hb := mem_enumPairs_snd_bound (show (p.1, p.2) ∈ enumPairs (o + 1) rest by
      simpa using hp)
    rw [hsnd] at hb
    linarith [hb.1]

theorem mem_map_swap {α β : Type} {d : List (α × β)} {a : α} {b : β} :
    (b, a) ∈ d.map Prod.swap ↔ (a, b) ∈ d := by
  constructor
  · intro h
    obtain ⟨p, hp, he⟩ := List.mem_map.mp h
    cases p with
    | mk x y =>
      simp only [Prod.swap_prod_mk, Prod.mk.injEq] at he
      rw [← he.1, ← he.2]
      exact hp
  · intro h
    exact List.mem_map.mpr ⟨(a, b), h, rfl⟩

theorem keys_dictInsert_of_mem {α β : Type} [DecidableEq α]
    {d : List (α × β)} {k : α} (h : k ∈ d.map Prod.fst) (v : β) :
    (dictInsert d k v).map Prod.fst = d.map Prod.fst := by
  induction d with
  | nil => simp at h
  | cons e rest ih =>
    by_cases h2 : e.1 = k
    · simp [dictInsert, h2]
    · simp only [List.map_cons, List.mem_cons] at h
      rcases h with h3 | h3
      · exact absurd h3.symm h2
      · simp [dictInsert, h2, ih h3]

theorem keys_dictInsert_of_not_mem {α β : Type} [DecidableEq α]
    {d : List (α × β)} {k : α} (h : k ∉ d.map Prod.fst) (v : β) :
    (dictInsert d k v).map Prod.fst = d.map Prod.fst ++ [k] := by
  induction d with
  | nil => simp [dictInsert]
  | cons e rest ih =>
    simp only [List.map_cons, List.mem_cons] at h
    push_neg at h
    have h2 : ¬ e.1 = k := fun hc => h.1 hc.symm
    simp [dictInsert, h2, ih h.2]

theorem keys_foldl_dictInsert {α β : Type} [DecidableEq α]
    (entries : List (α × β)) (d : List (α × β)) (hd : (d.map Prod.fst).Nodup) :
    ((entries.foldl (fun d e => dictInsert d e.1 e.2) d).map Prod.fst).Nodup
    ∧ ∀ k, k ∈ (entries.foldl (fun d e => dictInsert d e.1 e.2) d).map Prod.fst
        ↔ (k ∈ d.map Prod.fst ∨ k ∈ entries.map Prod.fst) := by
  induction entries generalizing d with
  | nil => exact ⟨hd, fun k => by simp⟩
  | cons e rest ih =>
    simp only [List.foldl_cons]
    by_cases h : e.1 ∈ d.map Prod.fst
    · have hk := keys_dictInsert_of_mem h e.2
      have hnd2 : ((dictInsert d e.1 e.2).map Prod.fst).Nodup := by rw [hk]; exact hd
      obtain ⟨ha, hb⟩ := ih (dictInsert d e.1 e.2) hnd2
      refine ⟨ha, fun k => ?_⟩
      rw [hb k, hk]
      simp only [List.map_cons, List.mem_cons]
      constructor
      · rintro (h1 | h1)
        · exact Or.inl h1
        · exact Or.inr (Or.inr h1)
      · rintro (h1 | h1 | h1)
        · exact Or.inl h1
        · rw [h1]; exact Or.inl h
        · exact Or.inr h1
    · have hk := keys_dictInsert_of_not_mem h e.2
      have hnd2 : ((dictInsert d e.1 e.2).map Prod.fst).Nodup := by
        rw [hk]
        simp [List.nodup_append, hd, h]
      obtain ⟨ha, hb⟩ := ih (dictInsert d e.1 e.2) hnd2
      refine ⟨ha, fun k => ?_⟩
      rw [hb k, hk]
      simp only [List.map_cons, List.mem_cons, List.mem_append, List.mem_singleton,
        List.not_mem_nil, or_false]
      tauto

theorem buildDict_length {α β : Type} [DecidableEq α] (entries : List (α × β)) :
    (buildDict entries).length = (entries.map Prod.fst).dedup.length := by
  obtain ⟨hnd, hmem⟩ := keys_foldl_dictInsert entries [] (by simp)
  have hnd2 : ((buildDict entries).map Prod.fst).Nodup := hnd
  have hmem2 : ∀ k, k ∈ (buildDict entries).map Prod.fst ↔ k ∈ entries.map Prod.fst := by
    intro k
    rw [buildDict, hmem k]
    simp
  have h1 : (buildDict entries).length = ((buildDict entries).map Prod.fst).length := by
    simp
  rw [h1, ← List.toFinset_card_of_nodup hnd2, ← List.card_toFinset]
  congr 1
  apply Finset.ext
  intro a
  simp only [List.mem_toFinset]
  exact hmem2 a

theorem entries_keys_nodup {m : StateIndexMap} (hnd : m.vectstates.Nodup) :
    (m.entries.map Prod.fst).Nodup := by
  rw [StateIndexMap.entries, enumPairs_map_fst]
  exact hnd

theorem swapped_entries_keys_nodup (m : StateIndexMap) :
    ((m.entries.map Prod.swap).map Prod.fst).Nodup := by
  have h : (m.entries.map Prod.swap).map Prod.fst = m.entries.map Prod.snd := by
    rw [List.map_map]
    rfl
  rw [h, StateIndexMap.entries]
  exact enumPairs_map_snd_nodup _ _

theorem state_to_index_eq_iff {m : StateIndexMap} (hnd : m.vectstates.Nodup)
    (s : State) (i : ℤ) :
    state_to_index m s = some i ↔ (s, i) ∈ m.entries := by
  rw [state_to_index, StateIndexMap.stateToIndexDict, alookup_buildDict]
  exact lookupLast_eq_iff (entries_keys_nodup hnd) s i

theorem index_to_state_eq_iff (m : StateIndexMap) (i : ℤ) (s : State) :
    index_to_state m i = some s ↔ (s, i) ∈ m.entries := by
  rw [index_to_state, StateIndexMap.indexToStateDict, alookup_buildDict]
  rw [lookupLast_eq_iff (swapped_entries_keys_nodup m)]
  exact mem_map_swap

/-- C5: for a StateIndexMap built from distinct state vectors, the
state-to-index and index-to-state dicts are mutually inverse bijections:
`index_to_state i = some s` exactly when `state_to_index s = some i`, every
domain state has an index, and for every valid relative position `k` the
index `origin + k` round-trips through both maps
(`index_of(state_of(i)) == i`). -/
theorem stateIndexMap_bijection (m : StateIndexMap) (hnd : m.vectstates.Nodup) :
    (∀ (i : ℤ) (s : State), index_to_state m i = some s ↔ state_to_index m s = some i)
    ∧ (∀ s ∈ m.vectstates, ∃ i, state_to_index m s = some i)
    ∧ (∀ k : ℕ, ∀ h : k < m.vectstates.length,
        index_to_state m (m.origin + k) = some (m.vectstates.get ⟨k, h⟩)
        ∧ state_to_index m (m.vectstates.get ⟨k, h⟩) = some (m.origin + k)) := by
  refine ⟨?_, ?_, ?_⟩
  · intro i s
    rw [index_to_state_eq_iff, state_to_index_eq_iff hnd]
  · intro s hs
    obtain ⟨⟨k, hk⟩, hget⟩ := List.mem_iff_get.mp hs
    refine ⟨m.origin + k, (state_to_index_eq_iff hnd s _).mpr ?_⟩
    rw [StateIndexMap.entries]
    exact mem_enumPairs.mpr ⟨k, hk, hget, rfl⟩
  · intro k h
    have hmem : (m.vectstates.get ⟨k, h⟩, m.origin + (k : ℤ)) ∈ m.entries := by
      rw [StateIndexMap.entries]
      exact mem_enumPairs.mpr ⟨k, h, rfl, rfl⟩
    exact ⟨(index_to_state_eq_iff m _ _).mpr hmem,
           (state_to_index_eq_iff hnd _ _).mpr hmem⟩

/-- Witness for C5 at a concrete map: the domain of 1-dimensional states
`[[0], [5], [3]]` with origin `0`. -/
theorem stateIndexMap_bijection_witness :
    ((([[0], [5], [3]] : List State).Nodup)
    ∧ (index_to_state ⟨1, [[0], [5], [3]], 0⟩ 1 = some [5]
        ↔ state_to_index ⟨1, [[0], [5], [3]], 0⟩ [5] = some 1))
    ∧ state_to_index ⟨1, [[0], [5], [3]], 0⟩ [3] = some 2 := by
  have h : (([[0], [5], [3]] : List State)).Nodup := by decide
  have hb := stateIndexMap_bijection ⟨1, [[0], [5], [3]], 0⟩ h
  refine ⟨⟨h, hb.1 1 [5]⟩, ?_⟩
  have h2 := (hb.2.2 2 (by decide)).2
  simpa using h2

/-- Counterexample to C8: constructing a StateIndexMap from the duplicate
state list `[[0], [0]]` does not fail at all: it silently produces a
populated map where the later index has overwritten the earlier one
(`state_to_index [0] = 1`), both indices still name the duplicated state,
and the size is 1 while two states were supplied. No `DuplicateStateError`
exists on this path in src/fsp.py. -/
theorem stateIndexMap_duplicate_no_error :
    (StateIndexMap.mk 1 [[0], [0]] 0).size = 1
    ∧ ([[0], [0]] : List State).length = 2
    ∧ state_to_index ⟨1, [[0], [0]], 0⟩ [0] = some 1
    ∧ index_to_state ⟨1, [[0], [0]], 0⟩ 0 = some [0]
    ∧ index_to_state ⟨1, [[0], [0]], 0⟩ 1 = some [0] := by
  refine ⟨?_, by decide, ?_, ?_, ?_⟩ <;> decide

/-- C8 (amended): construction from any ordered collection of state vectors
succeeds (no exception is raised; duplicates are silently collapsed with the
last occurrence's index winning), the resulting map's size equals the number
of distinct input states, and in particular with all-distinct states the
size equals the number of input states. -/
theorem stateIndexMap_size (d : ℕ) (vs : List State) (o : ℤ) :
    (StateIndexMap.mk d vs o).size = vs.dedup.length
    ∧ (vs.Nodup → (StateIndexMap.mk d vs o).size = vs.length) := by
  have h : (StateIndexMap.mk d vs o).size = vs.dedup.length := by
    rw [StateIndexMap.size, StateIndexMap.stateToIndexDict, buildDict_length]
    have h2 : (StateIndexMap.mk d vs o).entries.map Prod.fst = vs := by
      rw [StateIndexMap.entries]
      exact enumPairs_map_fst o vs
    rw [h2]
  exact ⟨h, fun hnd => by rw [h, List.dedup_eq_self.mpr hnd]⟩

/-- Witness for C8's amended theorem at the distinct two-state domain
`[[2], [7]]`. -/
theorem stateIndexMap_size_witness :
    ([[2], [7]] : List State).Nodup
    ∧ (StateIndexMap.mk 1 [[2], [7]] 0).size = [[2], [7]].length := by
  refine ⟨by decide, (stateIndexMap_size 1 [[2], [7]] 0).2 (by decide)⟩

/-- Sparse distribution: association of states with probabilities
(`domain.from_mapping` array form of a Distribution dict). -/
abbrev Dist := List (State × ℚ)

/-- Ordering of distribution entries by ascending probability, the sort key
of `numpy.argsort(probabilities)` in `compress`. -/
def probAsc (a b : State × ℚ) : Prop := a.2 ≤ b.2

instance : DecidableRel probAsc := fun a b => inferInstanceAs (Decidable (a.2 ≤ b.2))

instance : IsTotal (State × ℚ) probAsc := ⟨fun a b => le_total a.2 b.2⟩

instance : IsTrans (State × ℚ) probAsc := ⟨fun _ _ _ => le_trans⟩

/-- The elementwise truncation mask of `compress`: walk the
probability-ascending entries keeping a running cumulative sum, and retain
exactly the entries where `cumulative_probability >= epsilon`. -/
def keepCum (epsilon : ℚ) : ℚ → Dist → Dist
  | _, [] => []
  | acc, e :: rest =>
    if epsilon ≤ acc + e.2 then e :: keepCum epsilon (acc + e.2) rest
    else keepCum epsilon (acc + e.2) rest

/-- compress (src/cmepy/statistics.py, lines 284-321): raises ValueError
(modelled as `none`) unless `0 <= epsilon <= 1`; otherwise sorts the entries
by ascending probability and keeps those whose cumulative probability has
reached `epsilon`. -/
def compress (p : Dist) (epsilon : ℚ) : Option Dist :=
  if 0 ≤ epsilon ∧ epsilon ≤ 1 then
    some (if 0 < p.length then keepCum epsilon 0 (List.insertionSort probAsc p) else [])
  else none

theorem compress_eq_keepCum {p : Dist} {epsilon : ℚ}
    (h0 : 0 ≤ epsilon) (h1 : epsilon ≤ 1) :
    compress p epsilon = some (keepCum epsilon 0 (List.insertionSort probAsc p)) := by
  rw [compress, if_pos ⟨h0, h1⟩]
  cases p with
  | nil => simp [List.insertionSort, keepCum]
  | cons e rest => simp

theorem keepCum_all {epsilon acc : ℚ} {l : Dist} (hacc : epsilon ≤ acc)
    (hpos : ∀ e ∈ l, 0 ≤ e.2) : keepCum epsilon acc l = l := by
  induction l generalizing acc with
  | nil => rfl
  | cons e rest ih =>
    have he : 0 ≤ e.2 := hpos e (List.mem_cons_self _ _)
    have h2 : epsilon ≤ acc + e.2 := by linarith
    rw [keepCum, if_pos h2, ih h2 (fun x hx => hpos x (List.mem_cons_of_mem _ hx))]

theorem keepCum_subset {epsilon acc : ℚ} {l : Dist} {e : State × ℚ}
    (h : e ∈ keepCum epsilon acc l) : e ∈ l := by
  induction l generalizing acc with
  | nil => exact absurd h (by simp [keepCum])
  | cons x rest ih =>
    rw [keepCum] at h
    by_cases h2 : epsilon ≤ acc + x.2
    · rw [if_pos h2] at h
      rcases List.mem_cons.mp h with h3 | h3
      · rw [h3]; exact List.mem_cons_self _ _
      · exact List.mem_cons_of_mem _ (ih h3)
    · rw [if_neg h2] at h
      exact List.mem_cons_of_mem _ (ih h)

theorem keepCum_split (epsilon : ℚ) (acc : ℚ) (l : Dist)
    (hpos : ∀ e ∈ l, 0 ≤ e.2) :
    ∃ dropped, l = dropped ++ keepCum epsilon acc l
      ∧ (dropped = [] ∨ acc + (dropped.map Prod.snd).sum < epsilon)
      ∧ ∀ x, (keepCum epsilon acc l).head? = some x →
          epsilon ≤ acc + (dropped.map Prod.snd).sum + x.2 := by
  induction l generalizing acc with
  | nil =>
    refine ⟨[], by simp [keepCum], Or.inl rfl, ?_⟩
    intro x hx
    simp [keepCum] at hx
  | cons e rest ih =>
    by_cases h2 : epsilon ≤ acc + e.2
    · have hall : keepCum epsilon (acc + e.2) rest = rest :=
        keepCum_all h2 (fun x hx => hpos x (List.mem_cons_of_mem _ hx))
      have hk : keepCum epsilon acc (e :: rest) = e :: rest := by
        rw [keepCum, if_pos h2, hall]
      refine ⟨[], by rw [hk, List.nil_append], Or.inl rfl, ?_⟩
      intro x hx
      rw [hk] at hx
      simp only [List.head?_cons, Option.some.injEq] at hx
      rw [← hx]
      simpa using h2
    · obtain ⟨dropped2, hsplit, hsum, hhead⟩ :=
        ih (acc + e.2) (fun x hx => hpos x (List.mem_cons_of_mem _ hx))
      have hk : keepCum epsilon acc (e :: rest) = keepCum epsilon (acc + e.2) rest := by
        rw [keepCum, if_neg h2]
      have hdropsum : acc + ((e :: dropped2).map Prod.snd).sum
          = (acc + e.2) + (dropped2.map Prod.snd).sum := by
        simp only [List.map_cons, List.sum_cons]
        ring
      refine ⟨e :: dropped2, ?_, ?_, ?_⟩
      · rw [hk, List.cons_append, ← hsplit]
      · refine Or.inr ?_
        rw [hdropsum]
        rcases hsum with h3 | h3
        · rw [h3]
          simp only [List.map_nil, List.sum_nil, add_zero]
          linarith
        · exact h3
      · intro x hx
        rw [hk] at hx
        have h4 := hhead x hx
        rw [hdropsum]
        linarith

/-- C6: compressing the distribution with probabilities 0.01, 0.04, 0.95 at
epsilon = 0.05 drops exactly the 0.01 entry (its cumulative sum 0.01 is
below 0.05; the next cumulative sum 0.05 reaches 0.05 so that entry is
kept), returning exactly the 0.04 and 0.95 entries. -/
theorem compress_concrete_scenario :
    compress [([0], 1/100), ([1], 4/100), ([2], 95/100)] (5/100)
      = some [([1], 4/100), ([2], 95/100)] := by
  norm_num [compress, keepCum, List.insertionSort, List.orderedInsert, probAsc]

/-- Counterexample to C3: for the distribution with probabilities
0.1, 0.2, 0.3, 0.4 and epsilon = 0.5, the code keeps the 0.3 entry (the
first whose cumulative sum 0.6 reaches epsilon) instead of discarding it as
the claimed "discard the prefix whose cumulative sum first reaches or
exceeds epsilon" requires; the removed mass is 0.3, which is not ≥ epsilon
although removing the 0.3 entry as well (mass 0.6 ≥ 0.5) was possible, and
is not less than the probability 0.3 of the next-smallest retained entry. -/
theorem compress_prefix_claim_counterexample :
    compress [([0], 1/10), ([1], 2/10), ([2], 3/10), ([3], 4/10)] (5/10)
      = some [([2], 3/10), ([3], 4/10)]
    ∧ (1/10 + 2/10 : ℚ) < 5/10
    ∧ (5/10 : ℚ) ≤ 1/10 + 2/10 + 3/10
    ∧ ¬ ((1/10 + 2/10 : ℚ) < 3/10) := by
  refine ⟨?_, by norm_num, by norm_num, by norm_num⟩
  norm_num [compress, keepCum, List.insertionSort, List.orderedInsert, probAsc]

/-- C3 (amended): for every nonnegative sparse distribution and
epsilon in [0,1], compress sorts entries by ascending probability,
accumulates a running sum, and discards exactly those leading entries whose
cumulative sum is still strictly below epsilon, retaining the remainder
(including the first entry at which the cumulative sum reaches or exceeds
epsilon); consequently the total probability removed is strictly less than
epsilon whenever anything is removed, and the removed mass plus the
probability of the smallest retained entry reaches epsilon whenever
anything is retained. -/
theorem compress_discards_below_epsilon (p : Dist) (epsilon : ℚ)
    (h0 : 0 ≤ epsilon) (h1 : epsilon ≤ 1) (hpos : ∀ e ∈ p, 0 ≤ e.2) :
    ∃ kept dropped,
      compress p epsilon = some kept
      ∧ List.insertionSort probAsc p = dropped ++ kept
      ∧ (dropped.map Prod.snd).sum + (kept.map Prod.snd).sum = (p.map Prod.snd).sum
      ∧ (dropped = [] ∨ (dropped.map Prod.snd).sum < epsilon)
      ∧ ∀ x, kept.head? = some x → epsilon ≤ (dropped.map Prod.snd).sum + x.2 := by
  have hpos2 : ∀ e ∈ List.insertionSort probAsc p, 0 ≤ e.2 := fun e he =>
    hpos e ((List.perm_insertionSort probAsc p).mem_iff.mp he)
  obtain ⟨dropped, hsplit, hsum, hhead⟩ := keepCum_split epsilon 0 _ hpos2
  refine ⟨keepCum epsilon 0 (List.insertionSort probAsc p), dropped,
    compress_eq_keepCum h0 h1, hsplit, ?_, ?_, ?_⟩
  · have hp : ((List.insertionSort probAsc p).map Prod.snd).sum
        = (p.map Prod.snd).sum :=
      ((List.perm_insertionSort probAsc p).map Prod.snd).sum_eq
    have h3 : ((dropped ++ keepCum epsilon 0 (List.insertionSort probAsc p)).map
        Prod.snd).sum = (p.map Prod.snd).sum := by
      rw [← hsplit]
      exact hp
    rw [List.map_append, List.sum_append] at h3
    exact h3
  · rcases hsum with h | h
    · exact Or.inl h
    · exact Or.inr (by linarith)
  · intro x hx
    have h2 := hhead x hx
    linarith

/-- Witness for C3's amended theorem at the two-entry distribution with
probabilities 0.5 and 0.5 and epsilon 0.25. -/
theorem compress_discards_below_epsilon_witness :
    (0 : ℚ) ≤ 1/4 ∧ (1/4 : ℚ) ≤ 1
    ∧ (∀ e ∈ ([([0], 1/2), ([1], 1/2)] : Dist), 0 ≤ e.2)
    ∧ ∃ kept dropped,
        compress [([0], 1/2), ([1], 1/2)] (1/4) = some kept
        ∧ List.insertionSort probAsc [([0], 1/2), ([1], 1/2)] = dropped ++ kept
        ∧ (dropped.map Prod.snd).sum + (kept.map Prod.snd).sum
            = (([([0], 1/2), ([1], 1/2)] : Dist).map Prod.snd).sum
        ∧ (dropped = [] ∨ (dropped.map Prod.snd).sum < 1/4)
        ∧ ∀ x, kept.head? = some x → 1/4 ≤ (dropped.map Prod.snd).sum + x.2 :=
  ⟨by norm_num, by norm_num, by norm_num,
    compress_discards_below_epsilon [([0], 1/2), ([1], 1/2)] (1/4)
      (by norm_num) (by norm_num) (by norm_num)⟩

/-- C9: compressing the empty distribution yields the empty distribution;
every entry of a compressed distribution is an entry of the input (support
subset); compressing a nonnegative distribution with epsilon = 0 keeps every
entry, returning the input unchanged as a mapping (a permutation of its
entry list, so in particular unchanged modulo zero-valued entries). -/
theorem compress_identities :
    (∀ epsilon : ℚ, 0 ≤ epsilon → epsilon ≤ 1 → compress [] epsilon = some [])
    ∧ (∀ (p : Dist) (epsilon : ℚ) (kept : Dist), compress p epsilon = some kept →
        ∀ e ∈ kept, e ∈ p)
    ∧ (∀ p : Dist, (∀ e ∈ p, 0 ≤ e.2) →
        ∃ kept, compress p 0 = some kept ∧ List.Perm kept p) := by
  refine ⟨?_, ?_, ?_⟩
  · intro epsilon h0 h1
    rw [compress, if_pos ⟨h0, h1⟩]
    simp
  · intro p epsilon kept h e he
    rw [compress] at h
    by_cases hv : 0 ≤ epsilon ∧ epsilon ≤ 1
    · rw [if_pos hv] at h
      injection h with h2
      rw [← h2] at he
      by_cases hp : 0 < p.length
      · rw [if_pos hp] at he
        exact (List.perm_insertionSort probAsc p).mem_iff.mp (keepCum_subset he)
      · rw [if_neg hp] at he
        exact absurd he (by simp)
    · rw [if_neg hv] at h
      exact absurd h (by simp)
  · intro p hpos
    have hpos2 : ∀ e ∈ List.insertionSort probAsc p, 0 ≤ e.2 := fun e he =>
      hpos e ((List.perm_insertionSort probAsc p).mem_iff.mp he)
    refine ⟨keepCum 0 0 (List.insertionSort probAsc p),
      compress_eq_keepCum le_rfl zero_le_one, ?_⟩
    rw [keepCum_all le_rfl hpos2]
    exact List.perm_insertionSort probAsc p

/-- Witness for C9 at concrete inputs: the empty distribution with
epsilon 0.5, and the singleton distribution with probability 1 for the
support and epsilon-0 parts. -/
theorem compress_identities_witness :
    ((0 : ℚ) ≤ 1/2 ∧ (1/2 : ℚ) ≤ 1 ∧ compress [] (1/2) = some [])
    ∧ (compress [([5], 1)] 1 = some [([5], 1)] →
        ∀ e ∈ ([([5], 1)] : Dist), e ∈ ([([5], 1)] : Dist))
    ∧ (∃ kept, compress [([5], 1)] 0 = some kept
        ∧ List.Perm kept [([5], 1)]) := by
  refine ⟨⟨by norm_num, by norm_num,
    compress_identities.1 (1/2) (by norm_num) (by norm_num)⟩,
    fun h => compress_identities.2.1 [([5], 1)] 1 [([5], 1)] h,
    compress_identities.2.2 [([5], 1)] (by norm_num)⟩

/-- Destination state `dest_states = source_states + offset_vector`
(elementwise integer vector addition). -/
def vadd (s offset : State) : State := List.zipWith (· + ·) s offset

/-- Validity mask `dest_states >= 0` reduced along the coordinate axis
(fsp.py line 84). -/
def validState (s : State) : Bool := s.all (fun c => decide (0 ≤ c))

/-- An error tracker is a pair of an error projection and the error-space
StateIndexMap (fsp.py line 100). -/
abbrev ErrorTracker := (State → State) × StateIndexMap

/-- A COO triple `(row, col, value)` of a sparse flux matrix. -/
abbrev Triple := ℤ × ℤ × ℚ

/-- Sequence a fallible lookup over a list: `some` of the image list when
every lookup succeeds, `none` as soon as one raises (numpy vectorised dict
lookup raising KeyError). -/
def omapM {α β : Type} (f : α → Option β) : List α → Option (List β)
  | [] => some []
  | a :: rest =>
    match f a, omapM f rest with
    | some b, some bs => some (b :: bs)
    | _, _ => none

/-- The error-accumulator inflow entry of one tracker for an out-of-domain
valid destination `d`. The projection is applied through
`numpy.vectorize(error_projection, otypes = [numpy.int]*projection_dim)`
with the hardcoded hack `projection_dim = 4` (fsp.py, lines 102-108), which
raises unless the projected destination has exactly four coordinates
(modelled as `none`). On success the entry is `+r` at
`(error index of projected d, source column)`, failing (KeyError, also
`none`) when the projected destination is not a key of the error map. -/
def errEntry (d : State) (i : ℤ) (r : ℚ) (tr : ErrorTracker) : Option Triple :=
  if (tr.1 d).length = 4 then
    match state_to_index tr.2 (tr.1 d) with
    | some e => some ((e, i, r) : Triple)
    | none => none
  else none

/-- COO triples contributed by one source state of `create_flux_matrices`
(fsp.py lines 64-112): if the destination is in the domain, a diagonal
outflow `-r` at `(idx s, idx s)` and an inflow `+r` at `(idx d, idx s)`;
if the destination is outside the domain but has all coordinates
nonnegative, the diagonal outflow plus, for every configured error tracker,
an inflow `+r` at `(error index of projected destination, idx s)` via
`errEntry` (which enforces the hardcoded 4-coordinate projection output);
if the destination is invalid, no triples. The python code emits these entries in
vectorised blocks over all sources at once; since the COO-to-CSR conversion
sums duplicate `(row, col)` entries, the assembled matrix is insensitive to
emission order and the per-source grouping used here yields the same
matrix. -/
def sourceTriples (sim : StateIndexMap) (trackers : List ErrorTracker)
    (propensity : State → ℚ) (offset : State) (s : State) : Option (List Triple) :=
  match state_to_index sim s with
  | none => none
  | some i =>
    let d := vadd s offset
    match state_to_index sim d with
    | some j => some [(i, i, -propensity s), (j, i, propensity s)]
    | none =>
      if validState d then
        match omapM (errEntry d i (propensity s)) trackers with
        | some errs => some ((i, i, -propensity s) :: errs)
        | none => none
      else some []

/-- All COO triples of the flux matrix of one reaction
(`create_flux_matrices`, fsp.py lines 41-149), or `none` when an error
projection does not produce the hardcoded four coordinates or an error-map
lookup fails. -/
def fluxTriples (sim : StateIndexMap) (trackers : List ErrorTracker)
    (propensity : State → ℚ) (offset : State) : Option (List Triple) :=
  match omapM (sourceTriples sim trackers propensity offset) sim.vectstates with
  | some blocks => some blocks.flatten
  | none => none

/-- Sum of the entries of column `c` of the assembled sparse matrix over the
rows listed in `rows`; the matrix entry at `(r, c)` is the sum of all COO
triples with that row and column (`coo_matrix` + `sum_duplicates`), so this
is the sum of the values of all triples in column `c` whose row lies in
`rows`. -/
def colSumOver (rows : List ℤ) (T : List Triple) (c : ℤ) : ℚ :=
  (T.map (fun t => if t.2.1 = c ∧ t.1 ∈ rows then t.2.2 else 0)).sum

theorem colSumOver_nil (rows : List ℤ) (c : ℤ) : colSumOver rows [] c = 0 := rfl

theorem colSumOver_cons (rows : List ℤ) (t : Triple) (T : List Triple) (c : ℤ) :
    colSumOver rows (t :: T) c
      = (if t.2.1 = c ∧ t.1 ∈ rows then t.2.2 else 0) + colSumOver rows T c := by
  rw [colSumOver, List.map_cons, List.sum_cons, colSumOver]

theorem colSumOver_append (rows : List ℤ) (A B : List Triple) (c : ℤ) :
    colSumOver rows (A ++ B) c = colSumOver rows A c + colSumOver rows B c := by
  rw [colSumOver, List.map_append, List.sum_append, colSumOver, colSumOver]

theorem colSumOver_eq_zero_of_cols_ne {rows : List ℤ} {T : List Triple} {c : ℤ}
    (h : ∀ t ∈ T, t.2.1 ≠ c) : colSumOver rows T c = 0 := by
  induction T with
  | nil => rfl
  | cons t rest ih =>
    rw [colSumOver_cons]
    have h1 : ¬ (t.2.1 = c ∧ t.1 ∈ rows) := fun hc =>
      h t (List.mem_cons_self _ _) hc.1
    rw [if_neg h1, ih (fun x hx => h x (List.mem_cons_of_mem _ hx))]
    ring

theorem omapM_mem {α β : Type} {f : α → Option β} :
    ∀ {l : List α} {bs : List β}, omapM f l = some bs →
      ∀ b ∈ bs, ∃ a ∈ l, f a = some b := by
  intro l
  induction l with
  | nil =>
    intro bs h b hb
    rw [omapM] at h
    injection h with h2
    rw [← h2] at hb
    exact absurd hb (by simp)
  | cons a rest ih =>
    intro bs h b hb
    rw [omapM] at h
    cases hfa : f a with
    | none => rw [hfa] at h; exact absurd h (by simp)
    | some b2 =>
      rw [hfa] at h
      cases hrest : omapM f rest with
      | none => rw [hrest] at h; exact absurd h (by simp)
      | some bs2 =>
        rw [hrest] at h
        injection h with h2
        rw [← h2] at hb
        rcases List.mem_cons.mp hb with h3 | h3
        · exact ⟨a, List.mem_cons_self _ _, by rw [hfa, h3]⟩
        · obtain ⟨a2, ha2, hfa2⟩ := ih hrest b h3
          exact ⟨a2, List.mem_cons_of_mem _ ha2, hfa2⟩

theorem state_to_index_mem_entries {m : StateIndexMap} {x : State} {j : ℤ}
    (h : state_to_index m x = some j) : (x, j) ∈ m.entries := by
  rw [state_to_index, StateIndexMap.stateToIndexDict, alookup_buildDict] at h
  exact lookupLast_mem h

theorem sourceTriples_cols {sim : StateIndexMap} {trackers : List ErrorTracker}
    {propensity : State → ℚ} {offset : State} {s2 : State} {L : List Triple}
    {i2 : ℤ} (hL : sourceTriples sim trackers propensity offset s2 = some L)
    (hi2 : state_to_index sim s2 = some i2) :
    ∀ t ∈ L, t.2.1 = i2 := by
  intro t ht
  rw [sourceTriples, hi2] at hL
  dsimp only at hL
  cases hd : state_to_index sim (vadd s2 offset) with
  | some j =>
    rw [hd] at hL
    injection hL with h2
    rw [← h2] at ht
    rcases List.mem_cons.mp ht with h3 | h3
    · rw [h3]
    · rcases List.mem_cons.mp h3 with h4 | h4
      · rw [h4]
      · exact absurd h4 (by simp)
  | none =>
    rw [hd] at hL
    by_cases hv : validState (vadd s2 offset)
    · rw [if_pos hv] at hL
      cases herrs : omapM (errEntry (vadd s2 offset) i2 (propensity s2)) trackers with
      | none => rw [herrs] at hL; exact absurd hL (by simp)
      | some errs =>
        rw [herrs] at hL
        injection hL with h2
        rw [← h2] at ht
        rcases List.mem_cons.mp ht with h3 | h3
        · rw [h3]
        · obtain ⟨tr, _, htr⟩ := omapM_mem herrs t h3
          rw [errEntry] at htr
          by_cases hd4 : (tr.1 (vadd s2 offset)).length = 4
          · rw [if_pos hd4] at htr
            cases he : state_to_index tr.2 (tr.1 (vadd s2 offset)) with
            | none => rw [he] at htr; exact absurd htr (by simp)
            | some e =>
              rw [he] at htr
              injection htr with h4
              rw [← h4]
          · rw [if_neg hd4] at htr
            exact absurd htr (by simp)
    · rw [if_neg hv] at hL
      injection hL with h2
      rw [← h2] at ht
      exact absurd ht (by simp)

theorem errs_colSumOver_zero {d : State} {i : ℤ} {r : ℚ} {R : List ℤ} :
    ∀ {trs : List ErrorTracker} {errs : List Triple},
      omapM (errEntry d i r) trs = some errs →
      (∀ (m : Fin trs.length), ∀ p ∈ (trs.get m).2.entries, p.2 ∉ R) →
      colSumOver R errs i = 0 := by
  intro trs
  induction trs with
  | nil =>
    intro errs h hnotin
    rw [omapM] at h
    injection h with h2
    rw [← h2]
    rfl
  | cons tr rest ih =>
    intro errs h hnotin
    rw [omapM] at h
    cases he : errEntry d i r tr with
    | none => rw [he] at h; exact absurd h (by simp)
    | some b =>
      rw [he] at h
      cases hrest : omapM (errEntry d i r) rest with
      | none => rw [hrest] at h; exact absurd h (by simp)
      | some errs2 =>
        rw [hrest] at h
        injection h with h2
        rw [← h2, colSumOver_cons]
        rw [errEntry] at he
        by_cases hd4 : (tr.1 d).length = 4
        · rw [if_pos hd4] at he
          cases hlook : state_to_index tr.2 (tr.1 d) with
          | none => rw [hlook] at he; exact absurd he (by simp)
          | some e =>
            rw [hlook] at he
            injection he with h3
            have hrow : b.1 ∉ R := by
              rw [← h3]
              exact hnotin ⟨0, by simp⟩ (tr.1 d, e) (state_to_index_mem_entries hlook)
            rw [if_neg (fun hc => hrow hc.2)]
            have hrest0 : colSumOver R errs2 i = 0 := by
              refine ih hrest ?_
              intro m p hp
              exact hnotin ⟨m.1 + 1, by simpa using Nat.succ_lt_succ m.2⟩ p hp
            rw [hrest0]
            ring
        · rw [if_neg hd4] at he
          exact absurd he (by simp)

theorem errs_colSumOver {d : State} {i : ℤ} {r : ℚ} {R : List ℤ} :
    ∀ {trs : List ErrorTracker} {errs : List Triple} (k : ℕ) (hk : k < trs.length),
      omapM (errEntry d i r) trs = some errs →
      (∀ p ∈ (trs.get ⟨k, hk⟩).2.entries, p.2 ∈ R) →
      (∀ (m : Fin trs.length), (m : ℕ) ≠ k → ∀ p ∈ (trs.get m).2.entries, p.2 ∉ R) →
      colSumOver R errs i = r := by
  intro trs
  induction trs with
  | nil =>
    intro errs k hk
    exact absurd hk (by simp)
  | cons tr rest ih =>
    intro errs k hk h hin hoth
    rw [omapM] at h
    cases he : errEntry d i r tr with
    | none => rw [he] at h; exact absurd h (by simp)
    | some b =>
      rw [he] at h
      cases hrest : omapM (errEntry d i r) rest with
      | none => rw [hrest] at h; exact absurd h (by simp)
      | some errs2 =>
        rw [hrest] at h
        injection h with h2
        rw [← h2, colSumOver_cons]
        rw [errEntry] at he
        by_cases hd4 : (tr.1 d).length = 4
        · rw [if_pos hd4] at he
          cases hlook : state_to_index tr.2 (tr.1 d) with
          | none => rw [hlook] at he; exact absurd he (by simp)
          | some e =>
            rw [hlook] at he
            injection he with h3
            cases k with
            | zero =>
              have hrow : b.1 ∈ R := by
                rw [← h3]
                exact hin (tr.1 d, e) (state_to_index_mem_entries hlook)
              have hcol : b.2.1 = i := by rw [← h3]
              have hval : b.2.2 = r := by rw [← h3]
              rw [if_pos ⟨hcol, hrow⟩, hval]
              have hrest0 : colSumOver R errs2 i = 0 := by
                refine errs_colSumOver_zero hrest ?_
                intro m p hp
                exact hoth ⟨m.1 + 1, by simpa using Nat.succ_lt_succ m.2⟩
                  (by simp) p hp
              rw [hrest0]
              ring
            | succ k2 =>
              have hrow : b.1 ∉ R := by
                rw [← h3]
                exact hoth ⟨0, by simp⟩ (by simp) (tr.1 d, e)
                  (state_to_index_mem_entries hlook)
              rw [if_neg (fun hc => hrow hc.2)]
              have hrest1 : colSumOver R errs2 i = r := by
                refine ih k2 (Nat.lt_of_succ_lt_succ hk) hrest ?_ ?_
                · intro p hp
                  exact hin p hp
                · intro m hm p hp
                  refine hoth ⟨m.1 + 1, by simpa using Nat.succ_lt_succ m.2⟩ ?_ p hp
                  simpa using hm
              rw [hrest1]
              ring
        · rw [if_neg hd4] at he
          exact absurd he (by simp)

theorem sourceTriples_colSum_zero
    {sim : StateIndexMap} {trackers : List ErrorTracker}
    {propensity : State → ℚ} {offset : State} {s2 : State} {L : List Triple}
    {i2 : ℤ} (hL : sourceTriples sim trackers propensity offset s2 = some L)
    (hi2 : state_to_index sim s2 = some i2)
    {R : List ℤ} {k : ℕ} (hk : k < trackers.length)
    (hdom : ∀ p ∈ sim.entries, p.2 ∈ R)
    (htrk : ∀ p ∈ (trackers.get ⟨k, hk⟩).2.entries, p.2 ∈ R)
    (hoth : ∀ (m : Fin trackers.length), (m : ℕ) ≠ k →
        ∀ p ∈ (trackers.get m).2.entries, p.2 ∉ R) :
    colSumOver R L i2 = 0 := by
  rw [sourceTriples, hi2] at hL
  dsimp only at hL
  cases hd : state_to_index sim (vadd s2 offset) with
  | some j =>
    rw [hd] at hL
    injection hL with h2
    rw [← h2, colSumOver_cons, colSumOver_cons, colSumOver_nil]
    have hiR : i2 ∈ R := hdom (s2, i2) (state_to_index_mem_entries hi2)
    have hjR : j ∈ R := hdom (vadd s2 offset, j) (state_to_index_mem_entries hd)
    rw [if_pos ⟨rfl, hiR⟩, if_pos ⟨rfl, hjR⟩]
    ring
  | none =>
    rw [hd] at hL
    by_cases hv : validState (vadd s2 offset)
    · rw [if_pos hv] at hL
      cases herrs : omapM (errEntry (vadd s2 offset) i2 (propensity s2)) trackers with
      | none => rw [herrs] at hL; exact absurd hL (by simp)
      | some errs =>
        rw [herrs] at hL
        injection hL with h2
        rw [← h2, colSumOver_cons]
        have hiR : i2 ∈ R := hdom (s2, i2) (state_to_index_mem_entries hi2)
        rw [if_pos ⟨rfl, hiR⟩]
        rw [errs_colSumOver k hk herrs htrk hoth]
        ring
    · rw [if_neg hv] at hL
      injection hL with h2
      rw [← h2]
      rfl

theorem blocks_colSumOver_zero
    {sim : StateIndexMap} {trackers : List ErrorTracker}
    {propensity : State → ℚ} {offset : State} {i : ℤ}
    {R : List ℤ} {k : ℕ} (hk : k < trackers.length)
    (hdom : ∀ p ∈ sim.entries, p.2 ∈ R)
    (htrk : ∀ p ∈ (trackers.get ⟨k, hk⟩).2.entries, p.2 ∈ R)
    (hoth : ∀ (m : Fin trackers.length), (m : ℕ) ≠ k →
        ∀ p ∈ (trackers.get m).2.entries, p.2 ∉ R) :
    ∀ {srcs : List State} {blocks : List (List Triple)},
      omapM (sourceTriples sim trackers propensity offset) srcs = some blocks →
      colSumOver R blocks.flatten i = 0 := by
  intro srcs
  induction srcs with
  | nil =>
    intro blocks h
    rw [omapM] at h
    injection h with h2
    rw [← h2]
    rfl
  | cons s2 rest ih =>
    intro blocks h
    rw [omapM] at h
    cases hL : sourceTriples sim trackers propensity offset s2 with
    | none => rw [hL] at h; exact absurd h (by simp)
    | some L =>
      rw [hL] at h
      cases hrest : omapM (sourceTriples sim trackers propensity offset) rest with
      | none => rw [hrest] at h; exact absurd h (by simp)
      | some blocks2 =>
        rw [hrest] at h
        injection h with h2
        rw [← h2, List.flatten_cons, colSumOver_append, ih hrest]
        cases hi2 : state_to_index sim s2 with
        | none =>
          rw [sourceTriples, hi2] at hL
          exact absurd hL (by simp)
        | some i2 =>
          by_cases hii : i2 = i
          · rw [hii] at hi2
            rw [sourceTriples_colSum_zero hL hi2 hk hdom htrk hoth]
            ring
          · rw [colSumOver_eq_zero_of_cols_ne
              (fun t ht => by rw [sourceTriples_cols hL hi2 t ht]; exact hii)]
            ring

/-- C1 (amended): for every reaction flux matrix built over a domain with
configured error accumulators, and for every source state with at least one
valid destination, the sum of that source's column entries over the
domain-state rows plus the rows of any one chosen error accumulator equals
zero exactly, provided the chosen accumulator's index range is part of the
row set while the other accumulators' index ranges are kept out of it. With
exactly one configured accumulator this is the claimed conservation over the
domain rows plus all sink/error rows; with two or more accumulators the lost
flux is recorded once per accumulator, so the claimed sum over all error
rows together is no longer zero (see the counterexample). -/
theorem fluxMatrix_column_conservation
    (sim : StateIndexMap) (trackers : List ErrorTracker)
    (propensity : State → ℚ) (offset : State)
    (s : State) (i : ℤ) (hi : state_to_index sim s = some i)
    (T : List Triple) (hT : fluxTriples sim trackers propensity offset = some T)
    (k : ℕ) (hk : k < trackers.length) (R : List ℤ)
    (hdom : ∀ p ∈ sim.entries, p.2 ∈ R)
    (htrk : ∀ p ∈ (trackers.get ⟨k, hk⟩).2.entries, p.2 ∈ R)
    (hoth : ∀ (m : Fin trackers.length), (m : ℕ) ≠ k →
        ∀ p ∈ (trackers.get m).2.entries, p.2 ∉ R)
    (hvalid : state_to_index sim (vadd s offset) ≠ none
        ∨ validState (vadd s offset) = true) :
    colSumOver R T i = 0 := by
  rw [fluxTriples] at hT
  cases hblocks : omapM (sourceTriples sim trackers propensity offset)
      sim.vectstates with
  | none => rw [hblocks] at hT; exact absurd hT (by simp)
  | some blocks =>
    rw [hblocks] at hT
    injection hT with h2
    rw [← h2]
    exact blocks_colSumOver_zero hk hdom htrk hoth hblocks

/-- Counterexample to C1: a 1-dimensional domain `{[0]}` (index 0) with TWO
configured error accumulators over 4-dimensional error-tracking spaces
(index ranges `{1}` and `{2}`; the projections return exactly four
coordinates, as the hardcoded `projection_dim = 4` demands, so the code
accepts this configuration and builds the matrix), one reaction with offset
`[1]` and propensity 1. The source `[0]` has the valid out-of-domain
destination `[1]`, and the lost flux is recorded once into EACH
accumulator, so the column of source `[0]` summed over the domain row and
ALL configured sink/error rows is `-1 + 1 + 1 = 1`, not zero as the claim
states. -/
theorem fluxMatrix_column_sum_counterexample :
    fluxTriples ⟨1, [[0]], 0⟩
        [(fun _ => [0, 0, 0, 0], ⟨4, [[0, 0, 0, 0]], 1⟩),
          (fun _ => [0, 0, 0, 0], ⟨4, [[0, 0, 0, 0]], 2⟩)]
        (fun _ => 1) [1]
      = some [(0, 0, -1), (1, 0, 1), (2, 0, 1)]
    ∧ colSumOver [0, 1, 2] [(0, 0, -1), (1, 0, 1), (2, 0, 1)] 0 = 1
    ∧ (1 : ℚ) ≠ 0 := by
  refine ⟨rfl, ?_, by norm_num⟩
  norm_num [colSumOver]

/-- Witness for C1's amended theorem at the counterexample configuration,
choosing the first accumulator: the row set `[0, 1]` holds the domain row
and the first accumulator's row, and the column sum over it vanishes. -/
theorem fluxMatrix_column_conservation_witness :
    colSumOver [0, 1] [(0, 0, -1), (1, 0, 1), (2, 0, 1)] 0 = 0 :=
  fluxMatrix_column_conservation ⟨1, [[0]], 0⟩
    [(fun _ => [0, 0, 0, 0], ⟨4, [[0, 0, 0, 0]], 1⟩),
      (fun _ => [0, 0, 0, 0], ⟨4, [[0, 0, 0, 0]], 2⟩)]
    (fun _ => 1) [1] [0] 0 (by decide)
    [(0, 0, -1), (1, 0, 1), (2, 0, 1)] rfl
    0 (by decide) [0, 1] (by decide) (by decide)
    (by decide) (Or.inr (by decide))

/-- Dict insert-or-merge of `map_distribution_simple`: if the image key is
already bound, replace its value by the merge `g` of the old value and the
new one, otherwise add a fresh binding. -/
def dinsertMerge {κ : Type} [DecidableEq κ] (g : ℚ → ℚ → ℚ) (k : κ) (v : ℚ) :
    List (κ × ℚ) → List (κ × ℚ)
  | [] => [(k, v)]
  | e :: rest =>
    if e.1 = k then (e.1, g e.2 v) :: rest else e :: dinsertMerge g k v rest

/-- map_distribution_simple (statistics.py, lines 140-156) with the default
merge operation `g = operator.add`: fold over the items of `p`, inserting
each image key `f state` and merging values of duplicate image keys by
addition. -/
def map_distribution_simple {κ κ2 : Type} [DecidableEq κ2]
    (f : κ → κ2) (p : List (κ × ℚ)) : List (κ2 × ℚ) :=
  p.foldl (fun acc e => dinsertMerge (· + ·) (f e.1) e.2 acc) []

/-- Ordering of image pairs by key: the lexical ordering on image state
coordinates used by `numpy.lexsort` in `map_distribution`. -/
def keyAsc {κ2 : Type} [LinearOrder κ2] (a b : κ2 × ℚ) : Prop := a.1 ≤ b.1

instance {κ2 : Type} [LinearOrder κ2] :
    DecidableRel (keyAsc : κ2 × ℚ → κ2 × ℚ → Prop) :=
  fun a b => inferInstanceAs (Decidable (a.1 ≤ b.1))

instance {κ2 : Type} [LinearOrder κ2] : IsTotal (κ2 × ℚ) keyAsc :=
  ⟨fun a b => le_total a.1 b.1⟩

instance {κ2 : Type} [LinearOrder κ2] : IsTrans (κ2 × ℚ) keyAsc :=
  ⟨fun _ _ _ => le_trans⟩

/-- Grouping of adjacent equal image keys in the sorted pair list, reducing
each equivalence class of values with `g.reduce = numpy.add.reduce`
(map_distribution, statistics.py lines 199-226). -/
def groupSum {κ2 : Type} [DecidableEq κ2] : List (κ2 × ℚ) → List (κ2 × ℚ)
  | [] => []
  | e :: rest =>
    (e.1, e.2 + ((rest.takeWhile (fun x => decide (x.1 = e.1))).map Prod.snd).sum)
      :: groupSum (rest.dropWhile (fun x => decide (x.1 = e.1)))
termination_by l => l.length
decreasing_by
  simp only [List.length_cons]
  exact Nat.lt_succ_of_le (List.dropWhile_sublist _).length_le

/-- map_distribution (statistics.py, lines 158-226) with the default merge
`g = numpy.add`: empty input maps to the empty dict; otherwise the image
pairs `(f state, probability)` are stably sorted by image key and adjacent
equal image keys are merged by summing their values. -/
def map_distribution {κ κ2 : Type} [DecidableEq κ2] [LinearOrder κ2]
    (f : κ → κ2) (p : List (κ × ℚ)) : List (κ2 × ℚ) :=
  if p.length = 0 then []
  else groupSum (List.insertionSort keyAsc (p.map (fun e => (f e.1, e.2))))

/-- The total value bound to image key `k2` in a pair list: `none` when no
pair has that key, otherwise the sum of the matching values. -/
def keySum {κ2 : Type} [DecidableEq κ2] (l : List (κ2 × ℚ)) (k2 : κ2) : Option ℚ :=
  match l.filter (fun x => decide (x.1 = k2)) with
  | [] => none
  | m => some ((m.map Prod.snd).sum)

/-- The total probability mapped onto image key `k2`: `none` when no state
of `p` has image `k2`, otherwise the sum of the probabilities of the
preimages. -/
def imageSum {κ κ2 : Type} [DecidableEq κ2] (f : κ → κ2) (p : List (κ × ℚ))
    (k2 : κ2) : Option ℚ :=
  match p.filter (fun e => decide (f e.1 = k2)) with
  | [] => none
  | m => some ((m.map Prod.snd).sum)

/-- Merge of an optional bound value with an optional additional sum. -/
def omerge (a b : Option ℚ) : Option ℚ :=
  match a, b with
  | none, b2 => b2
  | some v, none => some v
  | some v, some w => some (v + w)

theorem dinsertMerge_lookup {κ : Type} [DecidableEq κ]
    (g : ℚ → ℚ → ℚ) (d : List (κ × ℚ)) (k k' : κ) (v : ℚ) :
    alookup k (dinsertMerge g k' v d)
      = if k' = k then
          match alookup k d with
          | none => some v
          | some w => some (g w v)
        else alookup k d := by
  induction d with
  | nil =>
    rw [dinsertMerge]
    by_cases h : k' = k <;> simp [alookup, h]
  | cons e rest ih =>
    rw [dinsertMerge]
    by_cases h : e.1 = k'
    · rw [if_pos h]
      by_cases h2 : k' = k
      · have h3 : e.1 = k := h.trans h2
        simp [alookup, h2, h3]
      · have h3 : ¬ e.1 = k := fun hc => h2 (h.symm.trans hc)
        simp [alookup, h2, h3]
    · rw [if_neg h]
      by_cases h2 : e.1 = k
      · have h3 : ¬ k' = k := fun hc => h (h2.trans hc.symm)
        simp [alookup, h2, h3]
      · simp only [alookup, if_neg h2, ih]

theorem alookup_foldl_dinsertMerge {κ κ2 : Type} [DecidableEq κ2] (f : κ → κ2) :
    ∀ (p : List (κ × ℚ)) (acc : List (κ2 × ℚ)) (k2 : κ2),
      alookup k2 (p.foldl (fun acc e => dinsertMerge (· + ·) (f e.1) e.2 acc) acc)
        = omerge (alookup k2 acc) (imageSum f p k2) := by
  intro p
  induction p with
  | nil =>
    intro acc k2
    simp only [List.foldl_nil, imageSum, List.filter_nil]
    cases alookup k2 acc <;> rfl
  | cons e rest ih =>
    intro acc k2
    simp only [List.foldl_cons]
    rw [ih, dinsertMerge_lookup]
    by_cases hfe : f e.1 = k2
    · rw [if_pos hfe]
      have hfil : (e :: rest).filter (fun x => decide (f x.1 = k2))
          = e :: rest.filter (fun x => decide (f x.1 = k2)) := by
        simp [List.filter_cons, hfe]
      simp only [imageSum, hfil]
      cases halook : alookup k2 acc with
      | none =>
        cases hrest : rest.filter (fun x => decide (f x.1 = k2)) with
        | nil => simp [omerge]
        | cons x xs =>
          simp only [omerge, List.map_cons, List.sum_cons]
      | some v =>
        cases hrest : rest.filter (fun x => decide (f x.1 = k2)) with
        | nil => simp [omerge]
        | cons x xs =>
          simp only [omerge, List.map_cons, List.sum_cons]
          congr 1
          ring
    · rw [if_neg hfe]
      have hfil : (e :: rest).filter (fun x => decide (f x.1 = k2))
          = rest.filter (fun x => decide (f x.1 = k2)) := by
        simp [List.filter_cons, hfe]
      simp only [imageSum, hfil]

theorem groupSum_lookup_aux {κ2 : Type} [DecidableEq κ2] [LinearOrder κ2] :
    ∀ (n : ℕ) (l : List (κ2 × ℚ)), l.length ≤ n → List.Sorted keyAsc l →
      ∀ k2 : κ2, alookup k2 (groupSum l) = keySum l k2 := by
  intro n
  induction n with
  | zero =>
    intro l hlen hs k2
    have hnil : l = [] := List.length_eq_zero.mp (Nat.le_zero.mp hlen)
    rw [hnil]
    simp [groupSum, keySum, alookup]
  | succ n ih =>
    intro l hlen hs k2
    cases l with
    | nil => simp [groupSum, keySum, alookup]
    | cons e rest =>
      obtain ⟨hrel, hsrest⟩ := List.sorted_cons.mp hs
      have ht : ∀ x ∈ rest.takeWhile (fun x => decide (x.1 = e.1)), x.1 = e.1 := by
        intro x hx
        have h2 := List.mem_takeWhile_imp hx
        simpa using h2
      have hsd : List.Sorted keyAsc (rest.dropWhile (fun x => decide (x.1 = e.1))) :=
        hsrest.sublist (List.dropWhile_sublist _)
      have hd_ne : ∀ x ∈ rest.dropWhile (fun x => decide (x.1 = e.1)), ¬ x.1 = e.1 := by
        cases hd : rest.dropWhile (fun x => decide (x.1 = e.1)) with
        | nil => intro x hx; exact absurd hx (by simp)
        | cons y ys =>
          have h0 : 0 < (rest.dropWhile (fun x => decide (x.1 = e.1))).length := by
            rw [hd]; simp
          have h2 := List.dropWhile_get_zero_not
            (p := fun x => decide (x.1 = e.1)) rest h0
          have h3 : (rest.dropWhile (fun x => decide (x.1 = e.1))).get ⟨0, h0⟩ = y := by
            have h4 := List.get_of_eq hd
              (⟨0, h0⟩ : Fin (rest.dropWhile (fun x => decide (x.1 = e.1))).length)
            simpa using h4
          rw [h3] at h2
          have hyne : ¬ y.1 = e.1 := by simpa using h2
          have hymem : y ∈ rest := (List.dropWhile_sublist _).subset (by rw [hd]; simp)
          have hey : e.1 < y.1 :=
            lt_of_le_of_ne (hrel y hymem) (fun hc => hyne (hc.symm))
          intro x hx
          rcases List.mem_cons.mp hx with h5 | h5
          · rw [h5]; exact hyne
          · have hsd2 : List.Sorted keyAsc (y :: ys) := by rw [hd] at hsd; exact hsd
            have hyx : keyAsc y x := (List.sorted_cons.mp hsd2).1 x h5
            intro hc
            rw [keyAsc] at hyx
            rw [hc] at hyx
            exact absurd (lt_of_lt_of_le hey hyx) (lt_irrefl _)
      rw [groupSum, alookup]
      by_cases he : e.1 = k2
      · rw [if_pos he]
        have hfe : (e :: rest).filter (fun x => decide (x.1 = k2))
            = e :: (rest.takeWhile (fun x => decide (x.1 = e.1))) := by
          rw [List.filter_cons, if_pos (decide_eq_true he)]
          congr 1
          conv_lhs => rw [← List.takeWhile_append_dropWhile
            (fun x => decide (x.1 = e.1)) rest]
          rw [List.filter_append]
          have hft : (rest.takeWhile (fun x => decide (x.1 = e.1))).filter
              (fun x => decide (x.1 = k2))
              = rest.takeWhile (fun x => decide (x.1 = e.1)) :=
            List.filter_eq_self.mpr (fun x hx =>
              decide_eq_true (by rw [ht x hx, he]))
          have hfd : (rest.dropWhile (fun x => decide (x.1 = e.1))).filter
              (fun x => decide (x.1 = k2)) = [] := by
            rw [List.filter_eq_nil_iff]
            intro x hx
            simp only [decide_eq_true_eq]
            intro hc
            exact hd_ne x hx (hc.trans he.symm)
          rw [hft, hfd, List.append_nil]
        simp only [keySum, hfe, List.map_cons, List.sum_cons]
      · rw [if_neg he]
        have hfe : (e :: rest).filter (fun x => decide (x.1 = k2))
            = (rest.dropWhile (fun x => decide (x.1 = e.1))).filter
                (fun x => decide (x.1 = k2)) := by
          rw [List.filter_cons, if_neg (by simpa using he)]
          conv_lhs => rw [← List.takeWhile_append_dropWhile
            (fun x => decide (x.1 = e.1)) rest]
          rw [List.filter_append]
          have hft : (rest.takeWhile (fun x => decide (x.1 = e.1))).filter
              (fun x => decide (x.1 = k2)) = [] := by
            rw [List.filter_eq_nil_iff]
            intro x hx
            simp only [decide_eq_true_eq]
            intro hc
            exact he (by rw [← ht x hx, hc])
          rw [hft, List.nil_append]
        rw [ih (rest.dropWhile (fun x => decide (x.1 = e.1)))
          ((List.dropWhile_sublist _).length_le.trans
            (Nat.le_of_succ_le_succ hlen)) hsd k2]
        simp only [keySum, hfe]

theorem groupSum_lookup {κ2 : Type} [DecidableEq κ2] [LinearOrder κ2]
    (l : List (κ2 × ℚ)) (hs : List.Sorted keyAsc l) (k2 : κ2) :
    alookup k2 (groupSum l) = keySum l k2 :=
  groupSum_lookup_aux l.length l le_rfl hs k2


theorem filter_map_pairs {κ κ2 : Type} [DecidableEq κ2] (f : κ → κ2)
    (p : List (κ × ℚ)) (k2 : κ2) :
    (p.map (fun e => (f e.1, e.2))).filter (fun x => decide (x.1 = k2))
      = (p.filter (fun e => decide (f e.1 = k2))).map (fun e => (f e.1, e.2)) := by
  induction p with
  | nil => rfl
  | cons e rest ih =>
    by_cases h : f e.1 = k2 <;>
      simp [List.filter_cons, h, ih]

theorem keySum_pairs {κ κ2 : Type} [DecidableEq κ2] (f : κ → κ2)
    (p : List (κ × ℚ)) (k2 : κ2) :
    keySum (p.map (fun e => (f e.1, e.2))) k2 = imageSum f p k2 := by
  simp only [keySum, imageSum, filter_map_pairs]
  cases h : p.filter (fun e => decide (f e.1 = k2)) with
  | nil => rfl
  | cons x xs =>
    simp only [List.map_cons, List.sum_cons, List.map_map]
    rfl

theorem keySum_perm {κ2 : Type} [DecidableEq κ2] {l l2 : List (κ2 × ℚ)}
    (h : l.Perm l2) (k2 : κ2) : keySum l k2 = keySum l2 k2 := by
  have hf : (l.filter (fun x => decide (x.1 = k2))).Perm
      (l2.filter (fun x => decide (x.1 = k2))) := h.filter _
  simp only [keySum]
  cases h1 : l.filter (fun x => decide (x.1 = k2)) with
  | nil =>
    rw [h1] at hf
    rw [hf.symm.eq_nil]
  | cons x xs =>
    rw [h1] at hf
    cases h2 : l2.filter (fun x => decide (x.1 = k2)) with
    | nil =>
      rw [h2] at hf
      exact absurd hf.eq_nil (by simp)
    | cons y ys =>
      rw [h2] at hf
      have hsum := (hf.map Prod.snd).sum_eq
      simp only [List.map_cons, List.sum_cons] at hsum ⊢
      rw [hsum]

/-- C10: with the default merge operation (addition), the optimised
map_distribution agrees with the reference implementation
map_distribution_simple on every non-empty mapping: for every image key
the bound value is the same in both (the sum of the values of the key's
preimages, absent when there is no preimage). -/
theorem map_distribution_refines {κ κ2 : Type} [DecidableEq κ2] [LinearOrder κ2]
    (f : κ → κ2) (p : List (κ × ℚ)) (hne : p ≠ []) (k2 : κ2) :
    alookup k2 (map_distribution f p) = alookup k2 (map_distribution_simple f p) := by
  have hlen : ¬ p.length = 0 := by simpa using hne
  rw [map_distribution, if_neg hlen,
    groupSum_lookup _ (List.sorted_insertionSort keyAsc _) k2,
    keySum_perm (List.perm_insertionSort keyAsc _) k2,
    keySum_pairs,
    map_distribution_simple, alookup_foldl_dinsertMerge]
  cases imageSum f p k2 <;> rfl

/-- Witness for C10 at a concrete distribution over 2-dimensional states,
with f projecting onto the first coordinate. -/
theorem map_distribution_refines_witness :
    (([([1, 5], 1/4), ([1, 7], 1/4), ([2, 0], 1/2)] : List (State × ℚ)) ≠ [])
    ∧ alookup (1 : ℤ) (map_distribution (fun s : State => s.headI)
        [([1, 5], 1/4), ([1, 7], 1/4), ([2, 0], 1/2)])
      = alookup (1 : ℤ) (map_distribution_simple (fun s : State => s.headI)
        [([1, 5], 1/4), ([1, 7], 1/4), ([2, 0], 1/2)]) :=
  ⟨by simp, map_distribution_refines (fun s : State => s.headI)
    [([1, 5], 1/4), ([1, 7], 1/4), ([2, 0], 1/2)] (by simp) 1⟩

/-- Scatter assignment `v[indices] = values` over a list of
`(index, value)` pairs (numpy fancy assignment; later pairs win on
duplicate indices). -/
def scatter (v : List ℚ) (pairs : List (ℤ × ℚ)) : List ℚ :=
  pairs.foldl (fun w e => w.set e.1.toNat e.2) v

/-- Remap of the last committed probability vector onto an expanded domain
(fsp/solver.py, lines 107-125): look up the index of every restore-point
domain state under the expanded enum (`expanded_enum.indices(p_0_domain)`,
`none` models the lookup failure when an old state is missing), allocate a
zero vector of the expanded size, and scatter the old probabilities into
the looked-up indices. `cmepy.state_enum.StateEnum` is not present under
src/; it is modelled from the spec as the State Index Map bijection with
origin 0, whose vectorised `indices` lookup is `omapM state_to_index`. -/
def remapVec (expandedEnum : StateIndexMap) (p0domain : List State)
    (p0 : List ℚ) : Option (List ℚ) :=
  match omapM (state_to_index expandedEnum) p0domain with
  | none => none
  | some idxs =>
    some (scatter (List.replicate expandedEnum.size 0) (idxs.zip p0))

theorem state_to_index_inj {m : StateIndexMap} {s1 s2 : State} {i : ℤ}
    (h1 : state_to_index m s1 = some i) (h2 : state_to_index m s2 = some i) :
    s1 = s2 := by
  have e1 := state_to_index_mem_entries h1
  have e2 := state_to_index_mem_entries h2
  rw [StateIndexMap.entries] at e1 e2
  obtain ⟨k1, hk1, hg1, hi1⟩ := mem_enumPairs.mp e1
  obtain ⟨k2, hk2, hg2, hi2⟩ := mem_enumPairs.mp e2
  have hk : k1 = k2 := by
    have h3 : m.origin + (k1 : ℤ) = m.origin + (k2 : ℤ) := by rw [← hi1, ← hi2]
    have h4 : (k1 : ℤ) = (k2 : ℤ) := by linarith
    exact_mod_cast h4
  rw [← hg1, ← hg2]
  congr 1
  exact Fin.ext hk

theorem omapM_indices_nodup {em : StateIndexMap} :
    ∀ {dom : List State} {idxs : List ℤ},
      omapM (state_to_index em) dom = some idxs → dom.Nodup → idxs.Nodup := by
  intro dom
  induction dom with
  | nil =>
    intro idxs h _
    rw [omapM] at h
    injection h with h2
    rw [← h2]
    exact List.nodup_nil
  | cons s rest ih =>
    intro idxs h hnd
    rw [omapM] at h
    cases hs : state_to_index em s with
    | none => rw [hs] at h; exact absurd h (by simp)
    | some i =>
      rw [hs] at h
      cases hrest : omapM (state_to_index em) rest with
      | none => rw [hrest] at h; exact absurd h (by simp)
      | some idxs2 =>
        rw [hrest] at h
        injection h with h2
        rw [← h2]
        rw [List.nodup_cons] at hnd ⊢
        refine ⟨?_, ih hrest hnd.2⟩
        intro hmem
        obtain ⟨s2, hs2mem, hs2⟩ := omapM_mem hrest i hmem
        exact hnd.1 (state_to_index_inj hs hs2 ▸ hs2mem)

theorem sum_set_of_lt (l : List ℚ) (i : ℕ) (a : ℚ) (h : i < l.length) :
    (l.set i a).sum + l.get ⟨i, h⟩ = l.sum + a := by
  induction l generalizing i with
  | nil => exact absurd h (by simp)
  | cons x rest ih =>
    cases i with
    | zero => simp [List.set]; ring
    | succ i2 =>
      have h2 : i2 < rest.length := Nat.lt_of_succ_lt_succ h
      have h3 := ih i2 h2
      simp only [List.set, List.sum_cons, List.get]
      linarith

theorem scatter_length (pairs : List (ℤ × ℚ)) (v : List ℚ) :
    (scatter v pairs).length = v.length := by
  induction pairs generalizing v with
  | nil => rfl
  | cons e rest ih =>
    rw [scatter, List.foldl_cons, ← scatter, ih, List.length_set]

theorem scatter_get_of_not_mem {pairs : List (ℤ × ℚ)} {n : ℕ}
    (h : ∀ e ∈ pairs, e.1.toNat ≠ n) (v : List ℚ) :
    (scatter v pairs).get? n = v.get? n := by
  induction pairs generalizing v with
  | nil => rfl
  | cons e rest ih =>
    rw [scatter, List.foldl_cons, ← scatter,
      ih (fun x hx => h x (List.mem_cons_of_mem _ hx))]
    exact List.get?_set_ne _ _ (h e (List.mem_cons_self _ _))

theorem scatter_get_of_mem {pairs : List (ℤ × ℚ)} {i : ℤ} {x : ℚ}
    (hnd : (pairs.map (fun e => e.1.toNat)).Nodup)
    (h : (i, x) ∈ pairs) (v : List ℚ)
    (hin : ∀ e ∈ pairs, e.1.toNat < v.length) :
    (scatter v pairs).get? i.toNat = some x := by
  induction pairs generalizing v with
  | nil => exact absurd h (by simp)
  | cons e rest ih =>
    rw [List.map_cons, List.nodup_cons] at hnd
    rw [scatter, List.foldl_cons, ← scatter]
    rcases List.mem_cons.mp h with h1 | h1
    · have hne : ∀ e2 ∈ rest, e2.1.toNat ≠ i.toNat := by
        intro e2 he2 hc
        rw [← h1] at hnd
        exact hnd.1 (by rw [← hc]; exact List.mem_map_of_mem (fun e => e.1.toNat) he2)
      have hlt : e.1.toNat < v.length := hin e (List.mem_cons_self _ _)
      rw [scatter_get_of_not_mem hne, ← h1]
      rw [← h1] at hlt
      exact List.get?_set_eq_of_lt _ hlt
    · exact ih hnd.2 h1 _ (fun e2 he2 => by
        rw [List.length_set]
        exact hin e2 (List.mem_cons_of_mem _ he2))

theorem scatter_sum {pairs : List (ℤ × ℚ)}
    (hnd : (pairs.map (fun e => e.1.toNat)).Nodup) :
    ∀ (v : List ℚ), (∀ e ∈ pairs, e.1.toNat < v.length) →
      (∀ e ∈ pairs, v.get? e.1.toNat = some 0) →
      (scatter v pairs).sum = v.sum + (pairs.map Prod.snd).sum := by
  induction pairs with
  | nil => intro v _ _; simp [scatter]
  | cons e rest ih =>
    intro v hin hzero
    rw [List.map_cons, List.nodup_cons] at hnd
    rw [scatter, List.foldl_cons, ← scatter]
    have hlt : e.1.toNat < v.length := hin e (List.mem_cons_self _ _)
    have hv0 : v.get ⟨e.1.toNat, hlt⟩ = 0 := by
      have h2 := hzero e (List.mem_cons_self _ _)
      rw [List.get?_eq_get hlt] at h2
      injection h2
    have hsum : (v.set e.1.toNat e.2).sum = v.sum + e.2 := by
      have h3 := sum_set_of_lt v e.1.toNat e.2 hlt
      rw [hv0] at h3
      linarith
    rw [ih hnd.2 (v.set e.1.toNat e.2)
      (fun e2 he2 => by rw [List.length_set]; exact hin e2 (List.mem_cons_of_mem _ he2))
      (fun e2 he2 => by
        rw [List.get?_set_ne _ _
          (fun hc => hnd.1 (by
            rw [hc]
            exact List.mem_map_of_mem (fun e => e.1.toNat) he2))]
        exact hzero e2 (List.mem_cons_of_mem _ he2))]
    rw [hsum, List.map_cons, List.sum_cons]
    ring

/-- Outcome of one call to FspSolver.step. -/
inductive StepOutcome : Type
  | accepted : StepOutcome
  | expansionFailure : StepOutcome
  | remapFailure : StepOutcome
  | fuelOut : StepOutcome
deriving DecidableEq

/-- Observable summary of one call to FspSolver.step: how many integrator
steps and expander calls were made, how many restore points were committed,
the probability vectors passed to the remap (in call order), and how the
call ended. -/
structure StepResult where
  integratorSteps : ℕ
  expanderCalls : ℕ
  restorePoints : ℕ
  remapInputs : List (List ℚ)
  outcome : StepOutcome
deriving DecidableEq

/-- The retry loop of FspSolver.step (fsp/solver.py, lines 92-141), with the
external integrator and domain expander as oracles: `integ n` gives the
`(p, p_sink)` read back from the solver on attempt `n`, and `expander n`
gives the domain returned by the n-th expansion call. Each iteration does
one integrator step; if the sink mass exceeds `stepEps` the expander is
invoked, the last committed restore vector `p0` (never the failed post-step
vector `(integ n).1`, which the loop does not consume) is remapped onto the
expanded domain, the expanded size is checked against the number of states
the current domain had when step was entered (`numberOfStates`, fixed
before the loop), raising ExpansionFailureError when not larger, and
otherwise the solver is restored and the step retried; if the sink mass is
within budget a restore point is committed and the loop returns. `fuel`
bounds the unrolling (the code itself has no iteration cap). -/
def stepLoop (integ : ℕ → List ℚ × ℚ) (expander : ℕ → List State)
    (stepEps : ℚ) (numberOfStates : ℕ) :
    ℕ → List ℚ → List State → ℕ → StepResult
  | _, _, _, 0 => ⟨0, 0, 0, [], .fuelOut⟩
  | n, p0, p0dom, fuel + 1 =>
    if (integ n).2 > stepEps then
      match remapVec ⟨0, expander n, 0⟩ p0dom p0 with
      | none => ⟨1, 1, 0, [p0], .remapFailure⟩
      | some q =>
        if (expander n).length ≤ numberOfStates then
          ⟨1, 1, 0, [p0], .expansionFailure⟩
        else
          let r := stepLoop integ expander stepEps numberOfStates
            (n + 1) q (expander n) fuel
          ⟨r.integratorSteps + 1, r.expanderCalls + 1, r.restorePoints,
            p0 :: r.remapInputs, r.outcome⟩
    else
      ⟨1, 0, 1, [], .accepted⟩

/-- FspSolver.step(t, epsilon): the loop entered with
`step_epsilon = restore_point_error + epsilon` and `number_of_states =
numpy.size(domain_states, 1)`, both computed once before the loop, and with
the restore point holding vector `p0` over the entry domain. -/
def FspStep (integ : ℕ → List ℚ × ℚ) (expander : ℕ → List State)
    (restorePointError epsilon : ℚ) (domainStates : List State)
    (p0 : List ℚ) (fuel : ℕ) : StepResult :=
  stepLoop integ expander (restorePointError + epsilon) domainStates.length
    0 p0 domainStates fuel

/-- C7: if on the first attempt the sink mass satisfies
`p_sink ≤ restore_point_error + epsilon`, step performs exactly one
integrator step, never invokes the domain expander, and commits exactly one
restore point before returning. -/
theorem step_accepts_first_attempt
    (integ : ℕ → List ℚ × ℚ) (expander : ℕ → List State)
    (restorePointError epsilon : ℚ) (domainStates : List State)
    (p0 : List ℚ) (fuel : ℕ)
    (h : (integ 0).2 ≤ restorePointError + epsilon) :
    FspStep integ expander restorePointError epsilon domainStates p0 (fuel + 1)
      = ⟨1, 0, 1, [], .accepted⟩ := by
  rw [FspStep, stepLoop, if_neg (not_lt.mpr h)]

/-- Witness for C7 at a concrete configuration whose first attempt leaks no
sink mass. -/
theorem step_accepts_first_attempt_witness :
    ((fun _ : ℕ => (([] : List ℚ), (0 : ℚ))) 0).2 ≤ 0 + 1/2
    ∧ FspStep (fun _ => ([], 0)) (fun _ => []) 0 (1/2) [[0]] [1] 1
      = ⟨1, 0, 1, [], .accepted⟩ :=
  ⟨by norm_num,
    step_accepts_first_attempt (fun _ => ([], 0)) (fun _ => []) 0 (1/2)
      [[0]] [1] 0 (by norm_num)⟩

/-- Counterexample to C4: a run in which the SECOND expansion returns the
same two-state domain produced by the first expansion — strictly larger
than the entry domain `[[0]]` (size 1) but not larger than the domain it
replaces (size 2) — yet step does not raise ExpansionFailureError: the size
check compares against the number of states captured before the loop, not
against the replaced domain, so the run simply retries and is accepted on
the third attempt after two expander calls. -/
theorem step_expansion_growth_counterexample :
    stepLoop (fun n => ([1], if n ≤ 1 then 1 else 0)) (fun _ => [[0], [1]])
        0 1 0 [1] [[0]] 3
      = ⟨3, 2, 1, [[1], [1, 0]], .accepted⟩
    ∧ ((fun _ : ℕ => ([[0], [1]] : List State)) 1).length
        ≤ ((fun _ : ℕ => ([[0], [1]] : List State)) 0).length := by
  exact ⟨by decide, by decide⟩

/-- C4 (amended): during a call to step, the size check compares each
expanded domain against the number of states the domain had when THE CALL
BEGAN (`number_of_states`, computed before the loop), not against the
domain the expansion replaces. Consequently: if step raises
ExpansionFailureError, the last expansion produced at most as many states
as the entry domain; and every expansion that passed the check (all calls
except the last one of a run ending in ExpansionFailureError or a remap
failure) produced strictly more states than the ENTRY domain — but not
necessarily more than the domain it directly replaced. -/
theorem step_expansion_growth
    (integ : ℕ → List ℚ × ℚ) (expander : ℕ → List State)
    (stepEps : ℚ) (N : ℕ) :
    ∀ (fuel n : ℕ) (p0 : List ℚ) (dom : List State) (r : StepResult),
      stepLoop integ expander stepEps N n p0 dom fuel = r →
      (r.outcome = .expansionFailure →
        1 ≤ r.expanderCalls ∧ (expander (n + r.expanderCalls - 1)).length ≤ N)
      ∧ (∀ m : ℕ, m < r.expanderCalls →
          (m + 1 < r.expanderCalls ∨ r.outcome = .accepted
            ∨ r.outcome = .fuelOut) →
          N < (expander (n + m)).length) := by
  intro fuel
  induction fuel with
  | zero =>
    intro n p0 dom r hr
    rw [stepLoop] at hr
    rw [← hr]
    dsimp only
    exact ⟨fun hc => absurd hc (by decide), fun m hm => absurd hm (by omega)⟩
  | succ fuel ih =>
    intro n p0 dom r hr
    rw [stepLoop] at hr
    by_cases hs : (integ n).2 > stepEps
    · rw [if_pos hs] at hr
      cases hq : remapVec ⟨0, expander n, 0⟩ dom p0 with
      | none =>
        rw [hq] at hr
        dsimp only at hr
        rw [← hr]
        dsimp only
        refine ⟨fun hc => absurd hc (by decide), ?_⟩
        intro m hm hcond
        rcases hcond with h1 | h1 | h1
        · omega
        · exact absurd h1 (by decide)
        · exact absurd h1 (by decide)
      | some q =>
        rw [hq] at hr
        dsimp only at hr
        by_cases hsz : (expander n).length ≤ N
        · rw [if_pos hsz] at hr
          rw [← hr]
          dsimp only
          refine ⟨fun _ => ⟨le_refl 1, by simpa using hsz⟩, ?_⟩
          intro m hm hcond
          rcases hcond with h1 | h1 | h1
          · omega
          · exact absurd h1 (by decide)
          · exact absurd h1 (by decide)
        · rw [if_neg hsz] at hr
          obtain ⟨ha, hb⟩ := ih (n + 1) q (expander n)
            (stepLoop integ expander stepEps N (n + 1) q (expander n) fuel) rfl
          rw [← hr]
          dsimp only
          constructor
          · intro hfail
            obtain ⟨h1, h2⟩ := ha hfail
            refine ⟨by omega, ?_⟩
            have h3 : n + ((stepLoop integ expander stepEps N (n + 1) q
                (expander n) fuel).expanderCalls + 1) - 1
                = n + 1 + (stepLoop integ expander stepEps N (n + 1) q
                  (expander n) fuel).expanderCalls - 1 := by omega
            rw [h3]
            exact h2
          · intro m hm hcond
            cases m with
            | zero =>
              simpa using not_le.mp hsz
            | succ m2 =>
              have hm2 : m2 < (stepLoop integ expander stepEps N (n + 1) q
                  (expander n) fuel).expanderCalls := by
                omega
              have hcond2 : m2 + 1 < (stepLoop integ expander stepEps N (n + 1) q
                    (expander n) fuel).expanderCalls
                  ∨ (stepLoop integ expander stepEps N (n + 1) q
                      (expander n) fuel).outcome = .accepted
                  ∨ (stepLoop integ expander stepEps N (n + 1) q
                      (expander n) fuel).outcome = .fuelOut := by
                rcases hcond with h1 | h1 | h1
                · exact Or.inl (by omega)
                · exact Or.inr (Or.inl h1)
                · exact Or.inr (Or.inr h1)
              have h4 : n + (m2 + 1) = n + 1 + m2 := by omega
              rw [h4]
              exact hb m2 hm2 hcond2
    · rw [if_neg hs] at hr
      rw [← hr]
      dsimp only
      refine ⟨fun hc => absurd hc (by decide), ?_⟩
      intro m hm _
      exact absurd hm (by omega)

/-- Witness for C4's amended theorem: a run whose single expansion returns
the entry domain unchanged (size 1, not larger than the entry size 1), so
step ends in ExpansionFailureError after one expander call. -/
theorem step_expansion_growth_witness :
    (stepLoop (fun _ => ([1], 1)) (fun _ => [[0]]) 0 1 0 [1] [[0]] 2).outcome
        = .expansionFailure
    ∧ 1 ≤ (stepLoop (fun _ => ([1], 1)) (fun _ => [[0]]) 0 1 0 [1]
        [[0]] 2).expanderCalls
    ∧ ((fun _ : ℕ => ([[0]] : List State))
        (0 + (stepLoop (fun _ => ([1], 1)) (fun _ => [[0]]) 0 1 0 [1]
          [[0]] 2).expanderCalls - 1)).length ≤ 1 := by
  refine ⟨by decide, ?_⟩
  have h := (step_expansion_growth (fun _ => ([1], 1)) (fun _ => [[0]]) 0 1
    2 0 [1] [[0]] _ rfl).1 (by decide)
  exact h

theorem omapM_length {α β : Type} {f : α → Option β} :
    ∀ {l : List α} {bs : List β}, omapM f l = some bs → bs.length = l.length := by
  intro l
  induction l with
  | nil =>
    intro bs h
    rw [omapM] at h
    injection h with h2
    rw [← h2]
    rfl
  | cons a rest ih =>
    intro bs h
    rw [omapM] at h
    cases hfa : f a with
    | none => rw [hfa] at h; exact absurd h (by simp)
    | some b =>
      rw [hfa] at h
      cases hrest : omapM f rest with
      | none => rw [hrest] at h; exact absurd h (by simp)
      | some bs2 =>
        rw [hrest] at h
        injection h with h2
        rw [← h2, List.length_cons, ih hrest, List.length_cons]

theorem omapM_get {α β : Type} {f : α → Option β} :
    ∀ {l : List α} {bs : List β}, omapM f l = some bs →
      ∀ (m : ℕ) (hm : m < l.length) (hb : m < bs.length),
        f (l.get ⟨m, hm⟩) = some (bs.get ⟨m, hb⟩) := by
  intro l
  induction l with
  | nil => intro bs h m hm; exact absurd hm (by simp)
  | cons a rest ih =>
    intro bs h m hm hb
    rw [omapM] at h
    cases hfa : f a with
    | none => rw [hfa] at h; exact absurd h (by simp)
    | some b =>
      rw [hfa] at h
      cases hrest : omapM f rest with
      | none => rw [hrest] at h; exact absurd h (by simp)
      | some bs2 =>
        rw [hrest] at h
        injection h with h2
        subst h2
        cases m with
        | zero => exact hfa
        | succ m2 =>
          have hm2 : m2 < rest.length := Nat.lt_of_succ_lt_succ hm
          have hb2 : m2 < bs2.length := Nat.lt_of_succ_lt_succ hb
          exact ih hrest m2 hm2 hb2

theorem omapM_some_of_forall {α β : Type} {f : α → Option β} :
    ∀ {l : List α}, (∀ a ∈ l, ∃ b, f a = some b) → ∃ bs, omapM f l = some bs := by
  intro l
  induction l with
  | nil => intro _; exact ⟨[], rfl⟩
  | cons a rest ih =>
    intro h
    obtain ⟨b, hb⟩ := h a (List.mem_cons_self _ _)
    obtain ⟨bs2, hbs2⟩ := ih (fun x hx => h x (List.mem_cons_of_mem _ hx))
    refine ⟨b :: bs2, ?_⟩
    rw [omapM, hb, hbs2]

theorem state_to_index_range {m : StateIndexMap} {s : State} {i : ℤ}
    (h : state_to_index m s = some i) :
    m.origin ≤ i ∧ i < m.origin + m.vectstates.length := by
  have h2 := state_to_index_mem_entries h
  rw [StateIndexMap.entries] at h2
  exact mem_enumPairs_snd_bound h2

theorem stateIndexMap_size_eq {m : StateIndexMap} (h : m.vectstates.Nodup) :
    m.size = m.vectstates.length := by
  rw [StateIndexMap.size, StateIndexMap.stateToIndexDict, buildDict_length,
    StateIndexMap.entries, enumPairs_map_fst, List.dedup_eq_self.mpr h]

theorem stepLoop_sink_only (integ integ2 : ℕ → List ℚ × ℚ)
    (expander : ℕ → List State) (stepEps : ℚ) (N : ℕ)
    (h : ∀ a, (integ a).2 = (integ2 a).2) :
    ∀ (fuel n : ℕ) (v : List ℚ) (dom : List State),
      stepLoop integ expander stepEps N n v dom fuel
        = stepLoop integ2 expander stepEps N n v dom fuel := by
  intro fuel
  induction fuel with
  | zero => intro n v dom; rw [stepLoop, stepLoop]
  | succ fuel ih =>
    intro n v dom
    rw [stepLoop, stepLoop, h n]
    by_cases hs : (integ2 n).2 > stepEps
    · rw [if_pos hs, if_pos hs]
      cases hq : remapVec ⟨0, expander n, 0⟩ dom v with
      | none => rfl
      | some q =>
        dsimp only
        by_cases hsz : (expander n).length ≤ N
        · rw [if_pos hsz, if_pos hsz]
        · rw [if_neg hsz, if_neg hsz]
          rw [ih (n + 1) q (expander n)]
    · rw [if_neg hs, if_neg hs]

/-- C2: on expansion, the LAST COMMITTED (pre-step) probability vector is
remapped onto the new domain — the step loop consumes only the sink mass of
the failed post-step solution, never its probability vector, so the whole
step trace (including every remap input) is unchanged when the post-step
vectors change (second conjunct). The remap copies each old state's
probability to that state's index under the new state enumeration, leaves
every index not hit by an old state at zero, and — when the expanded domain
contains every state of the old domain — the remapped vector's total mass
equals the pre-expansion vector's total mass (first conjunct). -/
theorem remap_mass_preserving
    (em : StateIndexMap) (p0domain : List State) (p0 : List ℚ)
    (hem : em.vectstates.Nodup) (ho : em.origin = 0)
    (hnd : p0domain.Nodup) (hlen : p0.length = p0domain.length)
    (hsub : ∀ s ∈ p0domain, ∃ i, state_to_index em s = some i) :
    (∃ q, remapVec em p0domain p0 = some q
      ∧ q.length = em.size
      ∧ (∀ (m : ℕ) (hm : m < p0domain.length) (i : ℤ),
          state_to_index em (p0domain.get ⟨m, hm⟩) = some i →
          q.get? i.toNat = p0.get? m)
      ∧ (∀ n : ℕ, n < q.length →
          (∀ s ∈ p0domain, state_to_index em s ≠ some (n : ℤ)) →
          q.get? n = some 0)
      ∧ q.sum = p0.sum)
    ∧ (∀ (integ integ2 : ℕ → List ℚ × ℚ) (expander : ℕ → List State)
        (stepEps : ℚ) (N fuel n : ℕ) (v : List ℚ) (dom : List State),
        (∀ a, (integ a).2 = (integ2 a).2) →
        stepLoop integ expander stepEps N n v dom fuel
          = stepLoop integ2 expander stepEps N n v dom fuel) := by
  constructor
  · obtain ⟨idxs, hidxs⟩ := omapM_some_of_forall hsub
    have hlen2 : idxs.length = p0domain.length := omapM_length hidxs
    have hidnd : idxs.Nodup := omapM_indices_nodup hidxs hnd
    have hpos : ∀ i ∈ idxs, 0 ≤ i ∧ i < (em.vectstates.length : ℤ) := by
      intro i hi
      obtain ⟨s, _, hs⟩ := omapM_mem hidxs i hi
      have hr := state_to_index_range hs
      rw [ho] at hr
      constructor
      · exact hr.1
      · have := hr.2
        push_cast at this ⊢
        linarith
    have hsize : em.size = em.vectstates.length := stateIndexMap_size_eq hem
    have hzf : (idxs.zip p0).map Prod.fst = idxs :=
      List.map_fst_zip idxs p0 (by rw [hlen2, hlen])
    have hmapnd : ((idxs.zip p0).map (fun e => e.1.toNat)).Nodup := by
      have h2 : (idxs.zip p0).map (fun e => e.1.toNat)
          = ((idxs.zip p0).map Prod.fst).map Int.toNat := by
        rw [List.map_map]
        rfl
      rw [h2, hzf]
      refine hidnd.map_on ?_
      intro x hx y hy hxy
      have hx0 := (hpos x hx).1
      have hy0 := (hpos y hy).1
      omega
    have hin : ∀ e ∈ idxs.zip p0,
        e.1.toNat < (List.replicate em.size (0 : ℚ)).length := by
      intro e he
      have h1 : e.1 ∈ idxs := by
        rw [← hzf]
        exact List.mem_map_of_mem Prod.fst he
      have h2 := hpos e.1 h1
      rw [List.length_replicate, hsize]
      omega
    have hzero : ∀ e ∈ idxs.zip p0,
        (List.replicate em.size (0 : ℚ)).get? e.1.toNat = some 0 := by
      intro e he
      have h1 := hin e he
      rw [List.length_replicate] at h1
      rw [List.get?_eq_get (by rw [List.length_replicate]; exact h1)]
      simp
    refine ⟨scatter (List.replicate em.size 0) (idxs.zip p0), ?_, ?_, ?_, ?_, ?_⟩
    · rw [remapVec, hidxs]
    · rw [scatter_length, List.length_replicate]
    · intro m hm i hi
      have hmz : m < idxs.length := by rw [hlen2]; exact hm
      have hget := omapM_get hidxs m hm hmz
      rw [hi] at hget
      injection hget with hget2
      have hmp : m < p0.length := by rw [hlen]; exact hm
      have hmzip : m < (idxs.zip p0).length := by
        rw [List.length_zip]
        omega
      have hmem : (i, p0.get ⟨m, hmp⟩) ∈ idxs.zip p0 := by
        have h3 : (idxs.zip p0).get ⟨m, hmzip⟩
            = (idxs.get ⟨m, hmz⟩, p0.get ⟨m, hmp⟩) := by
          simp [List.getElem_zip]
        rw [hget2, ← h3]
        exact List.get_mem _ _ _
      rw [scatter_get_of_mem hmapnd hmem _ hin, List.get?_eq_get hmp]
    · intro n hn hnone
      have hne : ∀ e ∈ idxs.zip p0, e.1.toNat ≠ n := by
        intro e he hc
        have h1 : e.1 ∈ idxs := by
          rw [← hzf]
          exact List.mem_map_of_mem Prod.fst he
        obtain ⟨s, hsmem, hs⟩ := omapM_mem hidxs e.1 h1
        have h2 := (hpos e.1 h1).1
        have h3 : e.1 = (n : ℤ) := by omega
        rw [h3] at hs
        exact hnone s hsmem hs
      rw [scatter_get_of_not_mem hne]
      rw [scatter_length, List.length_replicate] at hn
      rw [List.get?_eq_get (by rw [List.length_replicate]; exact hn)]
      simp
    · rw [scatter_sum hmapnd _ hin hzero]
      have h1 : ((idxs.zip p0).map Prod.snd) = p0 :=
        List.map_snd_zip idxs p0 (by rw [hlen2, hlen])
      rw [h1]
      simp
  · intro integ integ2 expander stepEps N fuel n v dom h
    exact stepLoop_sink_only integ integ2 expander stepEps N h fuel n v dom

/-- Witness for C2 at a concrete expansion: the old domain `[[1], [0]]`
with vector `[3/4, 1/4]` is remapped onto the expanded domain
`[[0], [1], [2]]`. -/
theorem remap_mass_preserving_witness :
    (([[0], [1], [2]] : List State).Nodup
      ∧ ([[1], [0]] : List State).Nodup
      ∧ ([3/4, 1/4] : List ℚ).length = ([[1], [0]] : List State).length)
    ∧ (∃ q, remapVec ⟨0, [[0], [1], [2]], 0⟩ [[1], [0]] [3/4, 1/4] = some q
        ∧ q.length = (StateIndexMap.mk 0 [[0], [1], [2]] 0).size
        ∧ (∀ (m : ℕ) (hm : m < ([[1], [0]] : List State).length) (i : ℤ),
            state_to_index ⟨0, [[0], [1], [2]], 0⟩
              (([[1], [0]] : List State).get ⟨m, hm⟩) = some i →
            q.get? i.toNat = ([3/4, 1/4] : List ℚ).get? m)
        ∧ (∀ n : ℕ, n < q.length →
            (∀ s ∈ ([[1], [0]] : List State),
              state_to_index ⟨0, [[0], [1], [2]], 0⟩ s ≠ some (n : ℤ)) →
            q.get? n = some 0)
        ∧ q.sum = ([3/4, 1/4] : List ℚ).sum) := by
  refine ⟨⟨by decide, by decide, by decide⟩, ?_⟩
  exact (remap_mass_preserving ⟨0, [[0], [1], [2]], 0⟩ [[1], [0]] [3/4, 1/4]
    (by decide) rfl (by decide) (by decide)
    (by
      intro s hs
      rcases List.mem_cons.mp hs with h | h
      · exact ⟨1, by rw [h]; decide⟩
      · rcases List.mem_cons.mp h with h2 | h2
        · exact ⟨0, by rw [h2]; decide⟩
        · exact absurd h2 (by simp))).1
